import Mathlib

/-!
# Cache simulator (`csim.c`): shallow embedding and verified properties

The C program replays a valgrind trace against a set-associative cache with
LRU replacement.  The embedding follows `csim.c`:

* `struct Line`, `struct Set`, `struct Cache` become structures; a C array
  together with its length field (`line`/`num_lines`, `set`/`num_sets`) is one
  list, and the length field is the length of that list.
* The C `int` fields and counters are `Int`; `mem_addr` (`unsigned long`) values
  are `Nat`.  The two implicit conversions of `isInCache` are explicit:
  `toInt` for the store `line.tag = tag` (unsigned long to int) and `toMemAddr`
  for the comparison `line.tag == tag` (int to unsigned long).
* The three counters reached through `int *` parameters are one `Counters`
  record that is passed in and returned.
* An array access outside the allocated range has no defined behaviour in C;
  the functions that index an array return `none` there.
* Signed counters are not wrapped: a run is modelled as long as no `int`
  overflows (fewer than `2^31` accesses), and the `int` shift `1 << k` of
  `simulateCache` is the mathematical one, which is what C computes for
  `k ≤ 30`.
* The trace file is the list of the records that `fscanf` parses; printing is
  left out.
-/

namespace CacheSim

/-! ## Data model -/

/-- Cache line, `struct Line`: the fields `valid`, `tag`, `LRU` are C `int`s. -/
structure Line where
  valid : Int
  tag : Int
  LRU : Int
deriving DecidableEq, Repr

/-- Cache set, `struct Set`: the array `line`; `num_lines` is its length. -/
structure Set where
  line : List Line
deriving DecidableEq, Repr

/-- Number of lines of a set, the field `num_lines`. -/
def Set.num_lines (st : Set) : Nat := st.line.length

/-- Cache, `struct Cache`: the array `set`; `num_sets` is its length. -/
structure Cache where
  set : List Set
deriving DecidableEq, Repr

/-- Number of sets of a cache, the field `num_sets`. -/
def Cache.num_sets (cache : Cache) : Nat := cache.set.length

/-- Counters behind the pointers `hit_counter`, `miss_counter`, `eviction_counter`. -/
structure Counters where
  hit_counter : Int
  miss_counter : Int
  eviction_counter : Int
deriving DecidableEq, Repr

/-- Conversion of an `unsigned long` to `int` (the store `line.tag = tag`):
the low 32 bits read as a two's complement number. -/
def toInt (x : Nat) : Int := ((x : Int) + 2 ^ 31) % 2 ^ 32 - 2 ^ 31

/-- Conversion of an `int` to `unsigned long` (the usual arithmetic conversion in
`line.tag == tag`): the value modulo `2^64`. -/
def toMemAddr (x : Int) : Nat := (x % 2 ^ 64).toNat

/-! ## `makeEmptyCache` -/

/-- Function `makeEmptyCache`: `num_sets` sets of `E` lines; `calloc` zeroes the
memory, then line `j` of every set gets `valid = 0` and `LRU = j`. -/
def makeEmptyCache (num_sets E : Nat) : Cache :=
  ⟨(List.range num_sets).map fun (_ : Nat) =>
    ⟨(List.range E).map fun (j : Nat) => { valid := 0, tag := 0, LRU := (j : Int) }⟩⟩

/-! ## `findIndexLRU` -/

/-- Loop of `findIndexLRU`: `i` is the loop variable, the list holds the lines
`line[i], line[i+1], ...` still to visit. -/
def findIndexLRU_loop : List Line → Nat → Int → Nat → Nat
  | [], _, _, LRU_index => LRU_index
  | l :: rest, i, compare_LRU, LRU_index =>
    if compare_LRU > l.LRU then findIndexLRU_loop rest (i + 1) l.LRU i
    else findIndexLRU_loop rest (i + 1) compare_LRU LRU_index

/-- Function `findIndexLRU`: `compare_LRU` starts as `line[0].LRU`, `LRU_index`
as `0`, and the loop visits every line of the set. -/
def findIndexLRU (cache : Cache) (set_number : Nat) : Option Nat :=
  match cache.set[set_number]? with
  | none => none
  | some st =>
    match st.line[0]? with
    | none => none
    | some l0 => some (findIndexLRU_loop st.line 0 l0.LRU 0)

/-! ## `isInCache` -/

/-- First loop of `isInCache`: the index of the first line with `valid == 1` and
`tag == tag`, where the loop breaks; `none` when the loop runs to its end. -/
def isInCache_hitLoop : List Line → Nat → Nat → Option Nat
  | [], _, _ => none
  | l :: rest, tag, i =>
    if l.valid = 1 then
      if toMemAddr l.tag = tag then some i
      else isInCache_hitLoop rest tag (i + 1)
    else isInCache_hitLoop rest tag (i + 1)

/-- How the second loop of `isInCache` ends. -/
inductive MissExit where
  | fill (i : Nat)
  | evict
  | fallThrough
deriving DecidableEq, Repr

/-- Second loop of `isInCache` over the lines `line[i], line[i+1], ...` of a set
with `num_lines` lines: it breaks at the first line with `valid == 0` (fill), or
at `i == num_lines - 1` when that line has `valid == 1` (evict); otherwise it runs
to its end without a write. -/
def isInCache_missLoop : List Line → Nat → Nat → MissExit
  | [], _, _ => MissExit.fallThrough
  | l :: rest, num_lines, i =>
    if l.valid = 0 then MissExit.fill i
    else if i = num_lines - 1 then
      if l.valid = 1 then MissExit.evict
      else isInCache_missLoop rest num_lines (i + 1)
    else isInCache_missLoop rest num_lines (i + 1)

/-- Write to the fields of `cache->set[set_number].line[i]`. -/
def Cache.modifyLine (cache : Cache) (set_number i : Nat) (f : Line → Line) : Cache :=
  ⟨cache.set.modify (fun st => ⟨st.line.modify f i⟩) set_number⟩

/-- The assignment `line[i].LRU = access_counter` of the hit branch. -/
def hitWrite (access_counter : Int) (l : Line) : Line :=
  { l with LRU := access_counter }

/-- The assignments `valid = 1; tag = tag; LRU = access_counter` of the fill and
of the eviction branch; the `mem_addr` tag is converted to the `int` field. -/
def missWrite (tag : Nat) (access_counter : Int) (l : Line) : Line :=
  { l with valid := 1, tag := toInt tag, LRU := access_counter }

/-- Function `isInCache`.  The result is the cache and the counters after the
call; `none` stands for an access outside the arrays. -/
def isInCache (cache : Cache) (set_number tag : Nat) (ctr : Counters)
    (access_counter : Int) : Option (Cache × Counters) :=
  match cache.set[set_number]? with
  | none => none
  | some st =>
    match isInCache_hitLoop st.line tag 0 with
    | some i =>
      some (cache.modifyLine set_number i (hitWrite access_counter),
            { ctr with hit_counter := ctr.hit_counter + 1 })
    | none =>
      let ctr1 := { ctr with miss_counter := ctr.miss_counter + 1 }
      match isInCache_missLoop st.line st.num_lines 0 with
      | MissExit.fill i =>
        some (cache.modifyLine set_number i (missWrite tag access_counter), ctr1)
      | MissExit.evict =>
        match findIndexLRU cache set_number with
        | none => none
        | some LRU_index =>
          some (cache.modifyLine set_number LRU_index (missWrite tag access_counter),
                { ctr1 with eviction_counter := ctr1.eviction_counter + 1 })
      | MissExit.fallThrough => some (cache, ctr1)

/-! ## `simulateCache` -/

/-- Operation letter of a trace record (`oper`). -/
inductive Oper where
  | I
  | L
  | S
  | M
deriving DecidableEq, Repr

/-- One record of the trace file, as read by `fscanf (trace, "%s %lx, %d", ...)`. -/
structure Access where
  oper : Oper
  addr : Nat
  size : Int
deriving DecidableEq, Repr

/-- Mask `s_mask = (1 << s_bits) - 1`. -/
def s_mask (set_bits : Nat) : Nat := (1 <<< set_bits) - 1

/-- Mask `t_mask = (1 << (block_bits + set_bits)) - 1`. -/
def t_mask (set_bits block_bits : Nat) : Nat := (1 <<< (block_bits + set_bits)) - 1

/-- Set index of an address: `s_bits = s_mask & (addr >> block_bits)`. -/
def s_bits (set_bits block_bits addr : Nat) : Nat :=
  s_mask set_bits &&& (addr >>> block_bits)

/-- Tag of an address: `t_bits = t_mask & (addr >> (set_bits + block_bits))`. -/
def t_bits (set_bits block_bits addr : Nat) : Nat :=
  t_mask set_bits block_bits &&& (addr >>> (set_bits + block_bits))

/-- State of the replay loop: the cache, the counters and `access_counter`. -/
structure SimState where
  cache : Cache
  ctr : Counters
  access_counter : Int
deriving DecidableEq, Repr

/-- One call of `isInCache` from the replay loop followed by `access_counter++`. -/
def simulateCache_access (set_number tag : Nat) (st : SimState) : Option SimState :=
  match isInCache st.cache set_number tag st.ctr st.access_counter with
  | none => none
  | some (cache, ctr) => some ⟨cache, ctr, st.access_counter + 1⟩

/-- Body of the `while` loop of `simulateCache` for one record. -/
def simulateCache_step (set_bits block_bits : Nat) (st : SimState) (a : Access) :
    Option SimState :=
  let st1 : Option SimState :=
    if a.oper ≠ Oper.I then
      simulateCache_access (s_bits set_bits block_bits a.addr)
        (t_bits set_bits block_bits a.addr) st
    else some st
  match st1 with
  | none => none
  | some st1 =>
    if a.oper = Oper.M then
      simulateCache_access (s_bits set_bits block_bits a.addr)
        (t_bits set_bits block_bits a.addr) st1
    else some st1

/-- The `while` loop of `simulateCache` over the records of the trace. -/
def simulateCache_loop (set_bits block_bits : Nat) : SimState → List Access → Option SimState
  | st, [] => some st
  | st, a :: rest =>
    match simulateCache_step set_bits block_bits st a with
    | none => none
    | some st1 => simulateCache_loop set_bits block_bits st1 rest

/-- Function `simulateCache`: the cache has `pow(2, set_bits)` sets,
`access_counter` starts at `num_sets`, and the records are replayed in order.
`ctr` holds the values behind the three counter pointers at the call.  The
result is the state when the loop ends (the C function then frees the cache). -/
def simulateCache (trace : List Access) (set_bits block_bits E : Nat) (ctr : Counters) :
    Option SimState :=
  let num_sets := 2 ^ set_bits
  simulateCache_loop set_bits block_bits
    ⟨makeEmptyCache num_sets E, ctr, (num_sets : Int)⟩ trace

/-! ## Vocabulary of the specification -/

/-- A line answers a query for `tag`: `valid == 1` and `tag == tag` in `isInCache`. -/
def Line.holds (l : Line) (tag : Nat) : Prop := l.valid = 1 ∧ toMemAddr l.tag = tag

instance (l : Line) (tag : Nat) : Decidable (l.holds tag) := by
  unfold Line.holds; infer_instance

/-- Counters after a hit. -/
def Counters.hit (ctr : Counters) : Counters :=
  { ctr with hit_counter := ctr.hit_counter + 1 }

/-- Counters after a miss without eviction. -/
def Counters.miss (ctr : Counters) : Counters :=
  { ctr with miss_counter := ctr.miss_counter + 1 }

/-- Counters after a miss with eviction. -/
def Counters.missEvict (ctr : Counters) : Counters :=
  { ctr with miss_counter := ctr.miss_counter + 1,
             eviction_counter := ctr.eviction_counter + 1 }

/-- Number of trace records with operation `o`. -/
def countOper (o : Oper) (trace : List Access) : Nat :=
  trace.countP (fun a => decide (a.oper = o))

/-- Number of `isInCache` calls that the replay loop makes for one record. -/
def Oper.calls : Oper → Nat
  | Oper.I => 0
  | Oper.L => 1
  | Oper.S => 1
  | Oper.M => 2

/-- Number of `isInCache` calls of a whole trace. -/
def traceCalls (trace : List Access) : Nat :=
  countOper Oper.L trace + countOper Oper.S trace + 2 * countOper Oper.M trace

/-- The valid flags of all lines of the cache are 0 or 1. -/
def Cache.flagsOK (cache : Cache) : Prop :=
  ∀ st ∈ cache.set, ∀ l ∈ st.line, l.valid = 0 ∨ l.valid = 1

instance (cache : Cache) : Decidable cache.flagsOK := by
  unfold Cache.flagsOK; infer_instance

/-- No two distinct lines of the set are both valid with the same tag. -/
def Set.noDupTags (st : Set) : Prop :=
  st.line.Pairwise (fun a b => ¬ (a.valid = 1 ∧ b.valid = 1 ∧ a.tag = b.tag))

/-- No set of the cache has two distinct valid lines with the same tag. -/
def Cache.noDupTags (cache : Cache) : Prop :=
  ∀ st ∈ cache.set, st.noDupTags

instance (st : Set) : Decidable st.noDupTags := by
  unfold Set.noDupTags; infer_instance

instance (cache : Cache) : Decidable cache.noDupTags := by
  unfold Cache.noDupTags; infer_instance

/-- Number of valid lines of a set (lines with `valid == 1`). -/
def Set.validCount (st : Set) : Nat :=
  st.line.countP (fun l => decide (l.valid = 1))

/-- Arguments of one call of `isInCache`. -/
structure Call where
  set_number : Nat
  tag : Nat
  access_counter : Int
deriving DecidableEq, Repr

/-- A sequence of calls of `isInCache`, each on the cache and the counters that the
call before it left. -/
def isInCache_calls : Cache → Counters → List Call → Option (Cache × Counters)
  | cache, ctr, [] => some (cache, ctr)
  | cache, ctr, c :: rest =>
    match isInCache cache c.set_number c.tag ctr c.access_counter with
    | none => none
    | some (cache2, ctr2) => isInCache_calls cache2 ctr2 rest

/-- The set has `E` lines and their valid flags are 0 or 1. -/
def Set.shapeOK (E : Nat) (st : Set) : Prop :=
  st.line.length = E ∧ ∀ l ∈ st.line, l.valid = 0 ∨ l.valid = 1

/-- The `isInCache` calls that the replay loop makes for one record when
`access_counter` is `ac`: none for `I`, one for `L` and `S`, two for `M`, on the
set and tag decoded from the address, with consecutive access counters. -/
def accessCalls (set_bits block_bits : Nat) (ac : Int) (a : Access) : List Call :=
  match a.oper with
  | Oper.I => []
  | Oper.L => [⟨s_bits set_bits block_bits a.addr, t_bits set_bits block_bits a.addr, ac⟩]
  | Oper.S => [⟨s_bits set_bits block_bits a.addr, t_bits set_bits block_bits a.addr, ac⟩]
  | Oper.M => [⟨s_bits set_bits block_bits a.addr, t_bits set_bits block_bits a.addr, ac⟩,
               ⟨s_bits set_bits block_bits a.addr, t_bits set_bits block_bits a.addr, ac + 1⟩]

/-- The `isInCache` calls of a whole trace, in order, when `access_counter` starts
at `ac`. -/
def traceCallList (set_bits block_bits : Nat) : Int → List Access → List Call
  | _, [] => []
  | ac, a :: rest =>
    accessCalls set_bits block_bits ac a ++
      traceCallList set_bits block_bits (ac + (a.oper.calls : Int)) rest

/-- The tag fields of all lines hold values of the C type `int` (32 bits). -/
def Cache.tagsInRange (cache : Cache) : Prop :=
  ∀ st ∈ cache.set, ∀ l ∈ st.line, -2 ^ 31 ≤ l.tag ∧ l.tag < 2 ^ 31

instance (cache : Cache) : Decidable cache.tagsInRange := by
  unfold Cache.tagsInRange; infer_instance

/-- Number of valid lines of the whole cache. -/
def Cache.totalValid (cache : Cache) : Nat :=
  (cache.set.map Set.validCount).sum

/-- Index of the line of set `set_number` that a call of `isInCache` writes: the line
of the hit, the filled line or the evicted line; `none` when the call writes no
line. -/
def touchedLine (cache : Cache) (set_number tag : Nat) : Option Nat :=
  match cache.set[set_number]? with
  | none => none
  | some st =>
    match isInCache_hitLoop st.line tag 0 with
    | some i => some i
    | none =>
      match isInCache_missLoop st.line st.num_lines 0 with
      | MissExit.fill i => some i
      | MissExit.evict => findIndexLRU cache set_number
      | MissExit.fallThrough => none

/-- Access counter of the most recent call, in a sequence of `isInCache` calls run
from `cache`, that wrote line `i` of set `s` (a hit on it, a fill of it or an
eviction of it); `none` when no call wrote it. -/
def lastAccess : Cache → Counters → List Call → Nat → Nat → Option Int
  | _, _, [], _, _ => none
  | cache, ctr, c :: rest, s, i =>
    match isInCache cache c.set_number c.tag ctr c.access_counter with
    | none => none
    | some (cache2, ctr2) =>
      match lastAccess cache2 ctr2 rest s i with
      | some t => some t
      | none =>
        if c.set_number = s ∧ touchedLine cache c.set_number c.tag = some i then
          some c.access_counter
        else none

/-- Stamps of a set seen at access counter `ac`: every valid line has a stamp from
`base` up to `ac - 1`, and distinct valid lines have distinct stamps. -/
def Set.stampsOK (base ac : Int) (st : Set) : Prop :=
  (∀ l ∈ st.line, l.valid = 1 → base ≤ l.LRU ∧ l.LRU < ac) ∧
  st.line.Pairwise (fun a b => a.valid = 1 → b.valid = 1 → a.LRU ≠ b.LRU)

/-! # Lemmas -/

theorem hitLoop_none_iff (tag : Nat) :
    ∀ (ls : List Line) (i : Nat),
      isInCache_hitLoop ls tag i = none ↔ ∀ l ∈ ls, ¬ l.holds tag := by
  intro ls
  induction ls with
  | nil => intro i; simp [isInCache_hitLoop]
  | cons l rest ih =>
    intro i
    unfold isInCache_hitLoop
    by_cases hv : l.valid = 1
    · by_cases ht : toMemAddr l.tag = tag
      · simp [hv, ht, Line.holds]
      · simp [hv, ht, Line.holds, ih (i + 1)]
    · simp [hv, Line.holds, ih (i + 1)]

theorem hitLoop_some (tag : Nat) :
    ∀ (ls : List Line) (i k : Nat), isInCache_hitLoop ls tag i = some k →
      ∃ j l, k = i + j ∧ ls[j]? = some l ∧ l.holds tag ∧
        ∀ j2 l2, j2 < j → ls[j2]? = some l2 → ¬ l2.holds tag := by
  intro ls
  induction ls with
  | nil => intro i k h; simp [isInCache_hitLoop] at h
  | cons l rest ih =>
    intro i k h
    unfold isInCache_hitLoop at h
    by_cases hl : l.valid = 1 ∧ toMemAddr l.tag = tag
    · obtain ⟨hv, ht⟩ := hl
      simp only [hv, ht, if_true, Option.some.injEq] at h
      exact ⟨0, l, by omega, by simp, ⟨hv, ht⟩, by intro j2 l2 hj; omega⟩
    · have h2 : isInCache_hitLoop rest tag (i + 1) = some k := by
        by_cases hv : l.valid = 1
        · have ht : ¬ toMemAddr l.tag = tag := fun ht => hl ⟨hv, ht⟩
          simpa [hv, ht] using h
        · simpa [hv] using h
      obtain ⟨j, l1, hk, hj, hh, hmin⟩ := ih (i + 1) k h2
      refine ⟨j + 1, l1, by omega, by simpa using hj, hh, ?_⟩
      intro j2 l2 hlt hget
      cases j2 with
      | zero =>
        simp at hget
        subst hget
        exact hl
      | succ j3 =>
        simp at hget
        exact hmin j3 l2 (by omega) hget

theorem missLoop_fill (n : Nat) :
    ∀ (ls : List Line) (i k : Nat), isInCache_missLoop ls n i = MissExit.fill k →
      ∃ j l, k = i + j ∧ ls[j]? = some l ∧ l.valid = 0 ∧
        ∀ j2 l2, j2 < j → ls[j2]? = some l2 → l2.valid ≠ 0 := by
  intro ls
  induction ls with
  | nil => intro i k h; simp [isInCache_missLoop] at h
  | cons l rest ih =>
    intro i k h
    unfold isInCache_missLoop at h
    by_cases hv : l.valid = 0
    · simp only [hv, if_true, MissExit.fill.injEq] at h
      exact ⟨0, l, by omega, by simp, hv, by intro j2 l2 hj; omega⟩
    · have h2 : isInCache_missLoop rest n (i + 1) = MissExit.fill k := by
        simp only [hv, if_false] at h
        split at h
        · split at h
          · cases h
          · exact h
        · exact h
      obtain ⟨j, l1, hk, hj, hh, hmin⟩ := ih (i + 1) k h2
      refine ⟨j + 1, l1, by omega, by simpa using hj, hh, ?_⟩
      intro j2 l2 hlt hget
      cases j2 with
      | zero =>
        simp at hget
        subst hget
        exact hv
      | succ j3 =>
        simp at hget
        exact hmin j3 l2 (by omega) hget

theorem missLoop_of_valid_ne_zero (n : Nat) :
    ∀ (ls : List Line) (i : Nat), n = i + ls.length → (∀ l ∈ ls, l.valid ≠ 0) →
      isInCache_missLoop ls n i =
        if (∃ l, ls.getLast? = some l ∧ l.valid = 1) then MissExit.evict
        else MissExit.fallThrough := by
  intro ls
  induction ls with
  | nil => intro i _ _; simp [isInCache_missLoop]
  | cons l rest ih =>
    intro i hn hall
    have hv : l.valid ≠ 0 := hall l (by simp)
    have hrest : ∀ x ∈ rest, x.valid ≠ 0 := fun x hx => hall x (by simp [hx])
    unfold isInCache_missLoop
    simp only [hv, if_false]
    cases rest with
    | nil =>
      have hi : i = n - 1 := by simp at hn; omega
      by_cases h1 : l.valid = 1
      · simp [hi, h1]
      · simp [hi, h1, isInCache_missLoop]
    | cons l2 rest2 =>
      have hi : ¬ i = n - 1 := by simp at hn; omega
      simp only [hi, if_false]
      rw [ih (i + 1) (by simp at hn ⊢; omega) hrest]
      simp [List.getLast?_cons_cons]

theorem missLoop_of_valid_eq_zero (n : Nat) :
    ∀ (ls : List Line) (i : Nat), n = i + ls.length → (∃ l ∈ ls, l.valid = 0) →
      ∃ k, isInCache_missLoop ls n i = MissExit.fill k := by
  intro ls
  induction ls with
  | nil => intro i _ h; simp at h
  | cons l rest ih =>
    intro i hn h
    unfold isInCache_missLoop
    by_cases hv : l.valid = 0
    · exact ⟨i, by simp [hv]⟩
    · have hr : ∃ x ∈ rest, x.valid = 0 := by
        obtain ⟨x, hx, hx0⟩ := h
        simp at hx
        rcases hx with rfl | hx
        · exact absurd hx0 hv
        · exact ⟨x, hx, hx0⟩
      have hlen : 0 < rest.length := by
        obtain ⟨x, hx, _⟩ := hr
        exact List.length_pos_of_mem hx
      have hi : ¬ i = n - 1 := by simp at hn; omega
      obtain ⟨k, hk⟩ := ih (i + 1) (by simp at hn ⊢; omega) hr
      exact ⟨k, by simp only [hv, hi, if_false]; exact hk⟩

/-! ### `findIndexLRU` -/

theorem findIndexLRU_loop_spec (full : List Line) :
    ∀ (ls : List Line) (i : Nat) (c : Int) (idx : Nat), full.drop i = ls →
      (∃ l, full[idx]? = some l ∧ l.LRU = c) →
      (∀ j l, j < i → full[j]? = some l → c ≤ l.LRU) →
      (∀ j l, j < idx → full[j]? = some l → c < l.LRU) →
      ∃ lk, full[findIndexLRU_loop ls i c idx]? = some lk ∧
        (∀ (j : Nat) (l : Line), full[j]? = some l → lk.LRU ≤ l.LRU) ∧
        (∀ j l, j < findIndexLRU_loop ls i c idx → full[j]? = some l → lk.LRU < l.LRU) := by
  intro ls
  induction ls with
  | nil =>
    intro i c idx hdrop hidx hle hlt
    obtain ⟨l, hl, hc⟩ := hidx
    have hlen : full.length ≤ i := by simpa using hdrop
    refine ⟨l, by simpa [findIndexLRU_loop] using hl, ?_, ?_⟩
    · intro j x hx
      have hj : j < full.length := (List.getElem?_eq_some.mp hx).1
      rw [hc]
      exact hle j x (by omega) hx
    · intro j x hj hx
      rw [hc]
      exact hlt j x (by simpa [findIndexLRU_loop] using hj) hx
  | cons l rest ih =>
    intro i c idx hdrop hidx hle hlt
    have hi : full[i]? = some l := by
      have := congrArg (fun t => t[0]?) hdrop
      simpa using this
    have hdrop2 : full.drop (i + 1) = rest := by
      have := congrArg List.tail hdrop
      simpa using this
    unfold findIndexLRU_loop
    by_cases hc : c > l.LRU
    · simp only [hc, if_true]
      apply ih (i + 1) l.LRU i hdrop2 ⟨l, hi, rfl⟩
      · intro j x hj hx
        by_cases hji : j = i
        · subst hji
          rw [hi] at hx
          cases hx
          exact le_refl _
        · have := hle j x (by omega) hx
          omega
      · intro j x hj hx
        have := hle j x hj hx
        omega
    · simp only [hc, if_false]
      apply ih (i + 1) c idx hdrop2 hidx
      · intro j x hj hx
        by_cases hji : j = i
        · subst hji
          rw [hi] at hx
          cases hx
          omega
        · exact hle j x (by omega) hx
      · exact hlt

theorem findIndexLRU_spec (cache : Cache) (set_number : Nat) (st : Set)
    (hst : cache.set[set_number]? = some st) (hne : st.line ≠ []) :
    ∃ k lk, findIndexLRU cache set_number = some k ∧ st.line[k]? = some lk ∧
      (∀ (j : Nat) (l : Line), st.line[j]? = some l → lk.LRU ≤ l.LRU) ∧
      (∀ j l, j < k → st.line[j]? = some l → lk.LRU < l.LRU) := by
  obtain ⟨l0, rest, hl⟩ := List.exists_cons_of_ne_nil hne
  have h0 : st.line[0]? = some l0 := by simp [hl]
  obtain ⟨lk, h1, h2, h3⟩ := findIndexLRU_loop_spec st.line st.line 0 l0.LRU 0 (by simp)
    ⟨l0, h0, rfl⟩ (by intro j l hj; omega) (by intro j l hj; omega)
  refine ⟨findIndexLRU_loop st.line 0 l0.LRU 0, lk, ?_, h1, h2, h3⟩
  simp [findIndexLRU, hst, h0]

/-! ### Writes to one line of the cache -/

theorem modifyLine_length (cache : Cache) (s i : Nat) (f : Line → Line) :
    (cache.modifyLine s i f).set.length = cache.set.length := by
  simp [Cache.modifyLine]

theorem modifyLine_get_ne (cache : Cache) (s i j : Nat) (f : Line → Line) (h : s ≠ j) :
    (cache.modifyLine s i f).set[j]? = cache.set[j]? := by
  simp [Cache.modifyLine, h]

theorem modifyLine_get_eq (cache : Cache) (s i : Nat) (f : Line → Line) (st : Set)
    (h : cache.set[s]? = some st) :
    (cache.modifyLine s i f).set[s]? = some ⟨st.line.modify f i⟩ := by
  simp [Cache.modifyLine, h]

/-! ### The branches of `isInCache` -/

theorem isInCache_cases (cache : Cache) (s tag : Nat) (ctr : Counters) (ac : Int) (st : Set)
    (hst : cache.set[s]? = some st) :
    (∃ k l, st.line[k]? = some l ∧ l.holds tag ∧
        (∀ (j : Nat) (x : Line), j < k → st.line[j]? = some x → ¬ x.holds tag) ∧
        isInCache cache s tag ctr ac = some (cache.modifyLine s k (hitWrite ac), ctr.hit)) ∨
    ((∀ l ∈ st.line, ¬ l.holds tag) ∧
      ((∃ k l, st.line[k]? = some l ∧ l.valid = 0 ∧
          (∀ (j : Nat) (x : Line), j < k → st.line[j]? = some x → x.valid ≠ 0) ∧
          isInCache cache s tag ctr ac =
            some (cache.modifyLine s k (missWrite tag ac), ctr.miss)) ∨
       ((∀ l ∈ st.line, l.valid ≠ 0) ∧ (∃ l, st.line.getLast? = some l ∧ l.valid = 1) ∧
          ∃ k lk, findIndexLRU cache s = some k ∧ st.line[k]? = some lk ∧
            (∀ (j : Nat) (x : Line), st.line[j]? = some x → lk.LRU ≤ x.LRU) ∧
            (∀ (j : Nat) (x : Line), j < k → st.line[j]? = some x → lk.LRU < x.LRU) ∧
            isInCache cache s tag ctr ac =
              some (cache.modifyLine s k (missWrite tag ac), ctr.missEvict)) ∨
       ((∀ l ∈ st.line, l.valid ≠ 0) ∧ (¬ ∃ l, st.line.getLast? = some l ∧ l.valid = 1) ∧
          isInCache cache s tag ctr ac = some (cache, ctr.miss)))) := by
  cases hh : isInCache_hitLoop st.line tag 0 with
  | some k =>
    left
    obtain ⟨j, l, hk, hj, hl, hmin⟩ := hitLoop_some tag st.line 0 k hh
    have hkj : k = j := by omega
    subst hkj
    exact ⟨k, l, hj, hl, hmin, by simp [isInCache, hst, hh, Counters.hit]⟩
  | none =>
    right
    refine ⟨(hitLoop_none_iff tag st.line 0).mp hh, ?_⟩
    by_cases hz : ∃ l ∈ st.line, l.valid = 0
    · left
      obtain ⟨k, hk⟩ := missLoop_of_valid_eq_zero st.num_lines st.line 0
        (by simp [Set.num_lines]) hz
      obtain ⟨j, l, hkj, hj, hl, hmin⟩ := missLoop_fill st.num_lines st.line 0 k hk
      have hkj2 : k = j := by omega
      subst hkj2
      exact ⟨k, l, hj, hl, hmin, by simp [isInCache, hst, hh, hk, Counters.miss]⟩
    · right
      have hall : ∀ l ∈ st.line, l.valid ≠ 0 := by
        intro l hl h0
        exact hz ⟨l, hl, h0⟩
      have hm := missLoop_of_valid_ne_zero st.num_lines st.line 0 (by simp [Set.num_lines]) hall
      by_cases hlast : ∃ l, st.line.getLast? = some l ∧ l.valid = 1
      · left
        rw [if_pos hlast] at hm
        have hne : st.line ≠ [] := by
          obtain ⟨l, hl, _⟩ := hlast
          intro hnil
          simp [hnil] at hl
        obtain ⟨k, lk, hf, hk, h1, h2⟩ := findIndexLRU_spec cache s st hst hne
        exact ⟨hall, hlast, k, lk, hf, hk, h1, h2,
          by simp [isInCache, hst, hh, hm, hf, Counters.missEvict]⟩
      · right
        rw [if_neg hlast] at hm
        exact ⟨hall, hlast, by simp [isInCache, hst, hh, hm, Counters.miss]⟩

theorem isInCache_frame (cache : Cache) (s tag : Nat) (ctr : Counters) (ac : Int)
    (hs : s < cache.set.length) :
    ∃ c2 ctr2, isInCache cache s tag ctr ac = some (c2, ctr2) ∧
      c2.set.length = cache.set.length ∧
      (∀ j, s ≠ j → c2.set[j]? = cache.set[j]?) ∧
      (∀ st, cache.set[s]? = some st →
        ∃ st2, c2.set[s]? = some st2 ∧ st2.line.length = st.line.length) ∧
      ctr2.hit_counter + ctr2.miss_counter = ctr.hit_counter + ctr.miss_counter + 1 := by
  have hst : cache.set[s]? = some cache.set[s] := List.getElem?_eq_getElem hs
  rcases isInCache_cases cache s tag ctr ac _ hst with
    ⟨k, l, _, _, _, h⟩ | ⟨_, ⟨k, l, _, _, _, h⟩ | ⟨_, _, k, lk, _, _, _, _, h⟩ | ⟨_, _, h⟩⟩
  · refine ⟨_, _, h, modifyLine_length _ _ _ _, fun j hj => modifyLine_get_ne _ _ _ _ _ hj, ?_, ?_⟩
    · intro st hst2
      exact ⟨_, modifyLine_get_eq _ _ _ _ _ hst2, by simp⟩
    · simp [Counters.hit]; ring
  · refine ⟨_, _, h, modifyLine_length _ _ _ _, fun j hj => modifyLine_get_ne _ _ _ _ _ hj, ?_, ?_⟩
    · intro st hst2
      exact ⟨_, modifyLine_get_eq _ _ _ _ _ hst2, by simp⟩
    · simp [Counters.miss]; ring
  · refine ⟨_, _, h, modifyLine_length _ _ _ _, fun j hj => modifyLine_get_ne _ _ _ _ _ hj, ?_, ?_⟩
    · intro st hst2
      exact ⟨_, modifyLine_get_eq _ _ _ _ _ hst2, by simp⟩
    · simp [Counters.missEvict]; ring
  · refine ⟨_, _, h, rfl, fun j _ => rfl, ?_, ?_⟩
    · intro st hst2
      exact ⟨st, hst2, rfl⟩
    · simp [Counters.miss]; ring

theorem s_bits_lt (set_bits block_bits addr : Nat) :
    s_bits set_bits block_bits addr < 2 ^ set_bits := by
  unfold s_bits s_mask
  rw [Nat.one_shiftLeft, Nat.and_comm, Nat.and_pow_two_sub_one_eq_mod]
  exact Nat.mod_lt _ (by positivity)

theorem makeEmptyCache_length (n E : Nat) : (makeEmptyCache n E).set.length = n := by
  simp [makeEmptyCache]

theorem simulateCache_access_ok (n s tag : Nat) (st : SimState)
    (hn : st.cache.set.length = n) (hs : s < n) :
    ∃ st2, simulateCache_access s tag st = some st2 ∧ st2.cache.set.length = n ∧
      st2.access_counter = st.access_counter + 1 ∧
      st2.ctr.hit_counter + st2.ctr.miss_counter =
        st.ctr.hit_counter + st.ctr.miss_counter + 1 := by
  obtain ⟨c2, ctr2, h, hlen, _, _, hsum⟩ :=
    isInCache_frame st.cache s tag st.ctr st.access_counter (by omega)
  exact ⟨⟨c2, ctr2, st.access_counter + 1⟩, by simp [simulateCache_access, h],
    by simpa [hn] using hlen, rfl, hsum⟩

theorem simulateCache_step_ok (set_bits block_bits : Nat) (st : SimState) (a : Access)
    (hn : st.cache.set.length = 2 ^ set_bits) :
    ∃ st2, simulateCache_step set_bits block_bits st a = some st2 ∧
      st2.cache.set.length = 2 ^ set_bits ∧
      st2.access_counter = st.access_counter + (a.oper.calls : Int) ∧
      st2.ctr.hit_counter + st2.ctr.miss_counter =
        st.ctr.hit_counter + st.ctr.miss_counter + (a.oper.calls : Int) := by
  have hlt := s_bits_lt set_bits block_bits a.addr
  obtain ⟨st1, h1, hn1, hac1, hsum1⟩ := simulateCache_access_ok (2 ^ set_bits)
    (s_bits set_bits block_bits a.addr) (t_bits set_bits block_bits a.addr) st hn hlt
  obtain ⟨st2, h2, hn2, hac2, hsum2⟩ := simulateCache_access_ok (2 ^ set_bits)
    (s_bits set_bits block_bits a.addr) (t_bits set_bits block_bits a.addr) st1 hn1 hlt
  cases ho : a.oper with
  | I => exact ⟨st, by simp [simulateCache_step, ho], hn, by simp [Oper.calls],
      by simp [Oper.calls]⟩
  | L => exact ⟨st1, by simp [simulateCache_step, ho, h1], hn1, by simp [Oper.calls, hac1],
      by simp [Oper.calls, hsum1]⟩
  | S => exact ⟨st1, by simp [simulateCache_step, ho, h1], hn1, by simp [Oper.calls, hac1],
      by simp [Oper.calls, hsum1]⟩
  | M => exact ⟨st2, by simp [simulateCache_step, ho, h1, h2], hn2,
      by simp [Oper.calls, hac2, hac1]; ring, by simp [Oper.calls, hsum2, hsum1]; ring⟩

theorem traceCalls_cons (a : Access) (rest : List Access) :
    traceCalls (a :: rest) = a.oper.calls + traceCalls rest := by
  unfold traceCalls countOper
  cases ho : a.oper <;> simp [List.countP_cons, ho, Oper.calls] <;> ring

theorem simulateCache_loop_ok (set_bits block_bits : Nat) :
    ∀ (trace : List Access) (st : SimState), st.cache.set.length = 2 ^ set_bits →
      ∃ st2, simulateCache_loop set_bits block_bits st trace = some st2 ∧
        st2.cache.set.length = 2 ^ set_bits ∧
        st2.access_counter = st.access_counter + (traceCalls trace : Int) ∧
        st2.ctr.hit_counter + st2.ctr.miss_counter =
          st.ctr.hit_counter + st.ctr.miss_counter + (traceCalls trace : Int) := by
  intro trace
  induction trace with
  | nil => intro st hn; exact ⟨st, rfl, hn, by simp [traceCalls, countOper], by simp [traceCalls, countOper]⟩
  | cons a rest ih =>
    intro st hn
    obtain ⟨st1, h1, hn1, hac1, hsum1⟩ := simulateCache_step_ok set_bits block_bits st a hn
    obtain ⟨st2, h2, hn2, hac2, hsum2⟩ := ih st1 hn1
    refine ⟨st2, by simp [simulateCache_loop, h1, h2], hn2, ?_, ?_⟩
    · rw [hac2, hac1, traceCalls_cons]; push_cast; ring
    · rw [hsum2, hsum1, traceCalls_cons]; push_cast; ring

theorem t_bits_eq_mod (set_bits block_bits addr : Nat) :
    t_bits set_bits block_bits addr =
      (addr >>> (set_bits + block_bits)) % 2 ^ (block_bits + set_bits) := by
  unfold t_bits t_mask
  rw [Nat.one_shiftLeft, Nat.and_comm, Nat.and_pow_two_sub_one_eq_mod]

theorem simulateCache_loop_filter (set_bits block_bits : Nat) :
    ∀ (trace : List Access) (st : SimState),
      simulateCache_loop set_bits block_bits st
          (trace.filter (fun a => decide (a.oper ≠ Oper.I))) =
        simulateCache_loop set_bits block_bits st trace := by
  intro trace
  induction trace with
  | nil => intro st; rfl
  | cons a rest ih =>
    intro st
    by_cases ho : a.oper = Oper.I
    · have hf : (a :: rest).filter (fun a => decide (a.oper ≠ Oper.I)) =
          rest.filter (fun a => decide (a.oper ≠ Oper.I)) := by
        simp [List.filter_cons, ho]
      rw [hf, ih]
      simp [simulateCache_loop, simulateCache_step, ho]
    · simp only [List.filter_cons, ho, ne_eq, not_false_eq_true, decide_True, if_true,
        simulateCache_loop]
      cases simulateCache_step set_bits block_bits st a with
      | none => rfl
      | some st1 => exact ih st1

theorem modify_eq_set_of_get {α : Type} (f : α → α) :
    ∀ (l : List α) (k : Nat) (x : α), l[k]? = some x → l.modify f k = l.set k (f x) := by
  intro l
  induction l with
  | nil => intro k x h; simp at h
  | cons a rest ih =>
    intro k x h
    cases k with
    | zero =>
      simp at h
      subst h
      simp
    | succ k2 =>
      simp at h
      simp [ih k2 x h]

theorem modifyLine_eq_set (cache : Cache) (s k : Nat) (f : Line → Line) (st : Set) (x : Line)
    (hst : cache.set[s]? = some st) (hx : st.line[k]? = some x) :
    cache.modifyLine s k f = ⟨cache.set.set s ⟨st.line.set k (f x)⟩⟩ := by
  unfold Cache.modifyLine
  rw [modify_eq_set_of_get _ cache.set s st hst, modify_eq_set_of_get f st.line k x hx]

theorem toInt_of_lt (tag : Nat) (h : tag < 2 ^ 31) : toInt tag = (tag : Int) := by
  unfold toInt
  omega

theorem toMemAddr_of_lt (tag : Nat) (h : tag < 2 ^ 64) : toMemAddr (tag : Int) = tag := by
  unfold toMemAddr
  omega

theorem getLast?_valid_of_full (ls : List Line) (hne : ls ≠ [])
    (hfull : ∀ l ∈ ls, l.valid = 1) : ∃ l, ls.getLast? = some l ∧ l.valid = 1 := by
  refine ⟨ls.getLast hne, List.getLast?_eq_getLast _ hne, hfull _ (List.getLast_mem hne)⟩

theorem modifyLine_line_get (cache : Cache) (s k : Nat) (f : Line → Line) (j i : Nat)
    (st1 : Set) (l : Line) (h1 : cache.set[j]? = some st1) (h2 : st1.line[i]? = some l) :
    ∃ st2 l2, (cache.modifyLine s k f).set[j]? = some st2 ∧ st2.line[i]? = some l2 ∧
      l2 = if s = j ∧ k = i then f l else l := by
  by_cases hs : s = j
  · subst hs
    refine ⟨_, _, modifyLine_get_eq cache s k f st1 h1, ?_, rfl⟩
    simp only [List.getElem?_modify, h2, true_and]
    by_cases hk : k = i <;> simp [hk]
  · refine ⟨st1, l, by rw [modifyLine_get_ne cache s k j f hs]; exact h1, h2, by simp [hs]⟩

theorem mem_modify {α : Type} (f : α → α) :
    ∀ (l : List α) (k : Nat) (b : α), b ∈ l.modify f k → b ∈ l ∨ ∃ y ∈ l, b = f y := by
  intro l
  induction l with
  | nil => intro k b h; simp at h
  | cons a rest ih =>
    intro k b h
    cases k with
    | zero =>
      simp at h
      rcases h with rfl | h
      · exact Or.inr ⟨a, by simp, rfl⟩
      · exact Or.inl (by simp [h])
    | succ k2 =>
      simp at h
      rcases h with rfl | h
      · exact Or.inl (by simp)
      · rcases ih k2 b h with h1 | ⟨y, hy, rfl⟩
        · exact Or.inl (by simp [h1])
        · exact Or.inr ⟨y, by simp [hy], rfl⟩

theorem pairwise_modify {α : Type} (R : α → α → Prop) (f : α → α) :
    ∀ (l : List α) (k : Nat), l.Pairwise R →
      (∀ y ∈ l, ∀ x ∈ l, R y x → R (f y) x) → (∀ y ∈ l, ∀ x ∈ l, R x y → R x (f y)) →
      (l.modify f k).Pairwise R := by
  intro l
  induction l with
  | nil => intro k _ _ _; simp
  | cons a rest ih =>
    intro k hp h1 h2
    rw [List.pairwise_cons] at hp
    have h1r : ∀ y ∈ rest, ∀ x ∈ rest, R y x → R (f y) x :=
      fun y hy x hx => h1 y (by simp [hy]) x (by simp [hx])
    have h2r : ∀ y ∈ rest, ∀ x ∈ rest, R x y → R x (f y) :=
      fun y hy x hx => h2 y (by simp [hy]) x (by simp [hx])
    cases k with
    | zero =>
      simp only [List.modify_zero_cons, List.pairwise_cons]
      exact ⟨fun b hb => h1 a (by simp) b (by simp [hb]) (hp.1 b hb), hp.2⟩
    | succ k2 =>
      simp only [List.modify_succ_cons, List.pairwise_cons]
      refine ⟨?_, ih k2 hp.2 h1r h2r⟩
      intro b hb
      rcases mem_modify f rest k2 b hb with hb1 | ⟨y, hy, rfl⟩
      · exact hp.1 b hb1
      · exact h2 y (by simp [hy]) a (by simp) (hp.1 y hy)

theorem noDupTags_modifyLine (cache : Cache) (s k : Nat) (f : Line → Line)
    (hnd : cache.noDupTags)
    (hf : ∀ st, cache.set[s]? = some st → (⟨st.line.modify f k⟩ : Set).noDupTags) :
    (cache.modifyLine s k f).noDupTags := by
  intro st2 hmem
  obtain ⟨j, hj⟩ := List.getElem?_of_mem hmem
  by_cases hs : s = j
  · subst hs
    have hlt : s < cache.set.length := by
      have := (List.getElem?_eq_some.mp hj).1
      simpa [modifyLine_length] using this
    have hst : cache.set[s]? = some cache.set[s] := List.getElem?_eq_getElem hlt
    rw [modifyLine_get_eq cache s k f _ hst] at hj
    cases hj
    exact hf _ hst
  · rw [modifyLine_get_ne cache s k j f hs] at hj
    exact hnd st2 (List.getElem?_mem hj)

theorem makeEmptyCache_noDupTags (n E : Nat) : (makeEmptyCache n E).noDupTags := by
  intro st hst
  simp only [makeEmptyCache, List.mem_map] at hst
  obtain ⟨_, _, rfl⟩ := hst
  unfold Set.noDupTags
  rw [List.pairwise_map]
  exact List.pairwise_of_forall (fun _ _ h => by simp at h)

theorem countP_modify_le {α : Type} (p : α → Bool) (f : α → α)
    (hf : ∀ x, p x = true → p (f x) = true) :
    ∀ (l : List α) (k : Nat), l.countP p ≤ (l.modify f k).countP p := by
  intro l
  induction l with
  | nil => intro k; simp
  | cons a rest ih =>
    intro k
    cases k with
    | zero =>
      simp only [List.modify_zero_cons, List.countP_cons]
      have := hf a
      by_cases hp : p a = true
      · simp [hp, this hp]
      · simp [hp]
    | succ k2 =>
      simp only [List.modify_succ_cons, List.countP_cons]
      have := ih k2
      omega

/-- What one call of `isInCache` does to the valid lines of each set. -/
theorem isInCache_validCount (cache : Cache) (s tag : Nat) (ctr : Counters) (ac : Int)
    (hs : s < cache.num_sets) :
    ∃ c2 ctr2, isInCache cache s tag ctr ac = some (c2, ctr2) ∧
      c2.num_sets = cache.num_sets ∧
      ∀ (j : Nat) (st : Set), cache.set[j]? = some st →
        ∃ st2, c2.set[j]? = some st2 ∧ st2.num_lines = st.num_lines ∧
          st.validCount ≤ st2.validCount ∧ st2.validCount ≤ st2.num_lines := by
  have hst : cache.set[s]? = some cache.set[s] := List.getElem?_eq_getElem hs
  have hmod : ∀ (k : Nat) (f : Line → Line), (∀ x : Line, x.valid = 1 → (f x).valid = 1) →
      ∀ (j : Nat) (st : Set), cache.set[j]? = some st →
        ∃ st2, (cache.modifyLine s k f).set[j]? = some st2 ∧ st2.num_lines = st.num_lines ∧
          st.validCount ≤ st2.validCount ∧ st2.validCount ≤ st2.num_lines := by
    intro k f hf j st hj
    by_cases hsj : s = j
    · subst hsj
      refine ⟨_, modifyLine_get_eq cache s k f st hj, by simp [Set.num_lines], ?_, ?_⟩
      · exact countP_modify_le _ f (by simpa using hf) st.line k
      · exact List.countP_le_length _
    · exact ⟨st, by rw [modifyLine_get_ne cache s k j f hsj]; exact hj, rfl, le_refl _,
        List.countP_le_length _⟩
  rcases isInCache_cases cache s tag ctr ac _ hst with
    ⟨k, l, _, _, _, h⟩ | ⟨_, ⟨k, l, _, _, _, h⟩ | ⟨_, _, k, lk, _, _, _, _, h⟩ | ⟨_, _, h⟩⟩
  · exact ⟨_, _, h, modifyLine_length _ _ _ _, hmod k _ (by intro x hx; simpa [hitWrite] using hx)⟩
  · exact ⟨_, _, h, modifyLine_length _ _ _ _, hmod k _ (by intro x _; simp [missWrite])⟩
  · exact ⟨_, _, h, modifyLine_length _ _ _ _, hmod k _ (by intro x _; simp [missWrite])⟩
  · exact ⟨_, _, h, rfl, fun j st hj => ⟨st, hj, rfl, le_refl _, List.countP_le_length _⟩⟩

theorem isInCache_calls_validCount :
    ∀ (calls : List Call) (cache : Cache) (ctr : Counters),
      (∀ c ∈ calls, c.set_number < cache.num_sets) →
      ∃ c2 ctr2, isInCache_calls cache ctr calls = some (c2, ctr2) ∧
        c2.num_sets = cache.num_sets ∧
        ∀ (j : Nat) (st : Set), cache.set[j]? = some st →
          ∃ st2, c2.set[j]? = some st2 ∧ st2.num_lines = st.num_lines ∧
            st.validCount ≤ st2.validCount ∧ st2.validCount ≤ st2.num_lines := by
  intro calls
  induction calls with
  | nil =>
    intro cache ctr _
    exact ⟨cache, ctr, rfl, rfl, fun j st hj => ⟨st, hj, rfl, le_refl _, List.countP_le_length _⟩⟩
  | cons c rest ih =>
    intro cache ctr hin
    obtain ⟨c1, ctr1, h1, hn1, hv1⟩ := isInCache_validCount cache c.set_number c.tag ctr
      c.access_counter (hin c (by simp))
    obtain ⟨c2, ctr2, h2, hn2, hv2⟩ := ih c1 ctr1 (by
      intro x hx
      rw [hn1]
      exact hin x (by simp [hx]))
    refine ⟨c2, ctr2, by simp [isInCache_calls, h1, h2], by rw [hn2, hn1], ?_⟩
    intro j st hj
    obtain ⟨st1, e1, l1, a1, _⟩ := hv1 j st hj
    obtain ⟨st2, e2, l2, a2, b2⟩ := hv2 j st1 e1
    exact ⟨st2, e2, by rw [l2, l1], le_trans a1 a2, b2⟩

theorem makeEmptyCache_validCount (n E : Nat) :
    ∀ st ∈ (makeEmptyCache n E).set, st.num_lines = E ∧ st.validCount = 0 := by
  intro st hst
  simp only [makeEmptyCache, List.mem_map] at hst
  obtain ⟨_, _, rfl⟩ := hst
  constructor
  · simp [Set.num_lines]
  · simp [Set.validCount, List.countP_eq_zero]

theorem modifyLine_all (P : Set → Prop) (cache : Cache) (s k : Nat) (f : Line → Line)
    (hall : ∀ st ∈ cache.set, P st)
    (hf : ∀ st, cache.set[s]? = some st → P ⟨st.line.modify f k⟩) :
    ∀ st ∈ (cache.modifyLine s k f).set, P st := by
  intro st2 hmem
  obtain ⟨j, hj⟩ := List.getElem?_of_mem hmem
  by_cases hs : s = j
  · subst hs
    have hlt : s < cache.set.length := by
      have := (List.getElem?_eq_some.mp hj).1
      simpa [modifyLine_length] using this
    have hst : cache.set[s]? = some cache.set[s] := List.getElem?_eq_getElem hlt
    rw [modifyLine_get_eq cache s k f _ hst] at hj
    cases hj
    exact hf _ hst
  · rw [modifyLine_get_ne cache s k j f hs] at hj
    exact hall st2 (List.getElem?_mem hj)

theorem shapeOK_modify (E k : Nat) (f : Line → Line) (st : Set)
    (hf : ∀ x : Line, x.valid = 0 ∨ x.valid = 1 → (f x).valid = 0 ∨ (f x).valid = 1)
    (h : st.shapeOK E) :
    (⟨st.line.modify f k⟩ : Set).shapeOK E := by
  refine ⟨by simpa using h.1, ?_⟩
  intro l hl
  rcases mem_modify f st.line k l hl with h1 | ⟨y, hy, rfl⟩
  · exact h.2 l h1
  · exact hf y (h.2 y hy)

theorem missWrite_holds (tag : Nat) (ac : Int) (x : Line) (htag : tag < 2 ^ 31) :
    (missWrite tag ac x).holds tag := by
  refine ⟨rfl, ?_⟩
  simp only [missWrite]
  rw [toInt_of_lt tag htag]
  exact toMemAddr_of_lt tag (by omega)

theorem mem_modify_self {α : Type} (f : α → α) (l : List α) (k : Nat) (x : α)
    (h : l[k]? = some x) : f x ∈ l.modify f k := by
  apply List.getElem?_mem (n := k)
  simp [List.getElem?_modify, h]

/-- After a call of `isInCache` on a non-empty set with flags 0 or 1 and a tag below
`2^31`, some line of the set answers the tag. -/
theorem isInCache_then_holds (cache : Cache) (s tag : Nat) (ctr : Counters) (ac : Int)
    (st : Set) (hst : cache.set[s]? = some st) (hne : st.line ≠ [])
    (hfl : ∀ l ∈ st.line, l.valid = 0 ∨ l.valid = 1) (htag : tag < 2 ^ 31) :
    ∃ c1 ctr1 st1, isInCache cache s tag ctr ac = some (c1, ctr1) ∧
      c1.set.length = cache.set.length ∧
      (∀ j, s ≠ j → c1.set[j]? = cache.set[j]?) ∧
      c1.set[s]? = some st1 ∧ (∃ l ∈ st1.line, l.holds tag) ∧
      ((∀ l ∈ st.line, ¬ l.holds tag) → ctr1 = ctr.miss ∨ ctr1 = ctr.missEvict) := by
  rcases isInCache_cases cache s tag ctr ac st hst with
    ⟨k, l, hl, hh, _, h⟩ | ⟨_, ⟨k, l, hl, _, _, h⟩ | ⟨_, _, k, lk, _, hl, _, _, h⟩ |
      ⟨hnz, hlast, _⟩⟩
  · refine ⟨_, _, _, h, modifyLine_length _ _ _ _,
      fun j hj => modifyLine_get_ne _ _ _ _ _ hj, modifyLine_get_eq cache s k _ st hst,
      ⟨_, mem_modify_self _ st.line k l hl, ⟨hh.1, hh.2⟩⟩, ?_⟩
    intro hmiss
    exact absurd hh (hmiss l (List.getElem?_mem hl))
  · exact ⟨_, _, _, h, modifyLine_length _ _ _ _,
      fun j hj => modifyLine_get_ne _ _ _ _ _ hj, modifyLine_get_eq cache s k _ st hst,
      ⟨_, mem_modify_self _ st.line k l hl, missWrite_holds tag ac l htag⟩, fun _ => Or.inl rfl⟩
  · exact ⟨_, _, _, h, modifyLine_length _ _ _ _,
      fun j hj => modifyLine_get_ne _ _ _ _ _ hj, modifyLine_get_eq cache s k _ st hst,
      ⟨_, mem_modify_self _ st.line k lk hl, missWrite_holds tag ac lk htag⟩,
      fun _ => Or.inr rfl⟩
  · exfalso
    apply hlast
    refine ⟨st.line.getLast hne, List.getLast?_eq_getLast _ hne, ?_⟩
    rcases hfl _ (List.getLast_mem hne) with h0 | h1
    · exact absurd h0 (hnz _ (List.getLast_mem hne))
    · exact h1

/-- A call of `isInCache` keeps the number of lines of every set and the valid
flags within 0 and 1. -/
theorem isInCache_shapeOK (cache : Cache) (s tag : Nat) (ctr : Counters) (ac : Int)
    (E : Nat) (hall : ∀ x ∈ cache.set, x.shapeOK E) (c1 : Cache) (ctr1 : Counters)
    (h1 : isInCache cache s tag ctr ac = some (c1, ctr1)) :
    ∀ x ∈ c1.set, x.shapeOK E := by
  have hmod : ∀ (k : Nat) (f : Line → Line),
      (∀ x : Line, x.valid = 0 ∨ x.valid = 1 → (f x).valid = 0 ∨ (f x).valid = 1) →
      ∀ x ∈ (cache.modifyLine s k f).set, x.shapeOK E :=
    fun k f hf => modifyLine_all _ cache s k f hall (fun st2 h2 =>
      shapeOK_modify E k f st2 hf (hall st2 (List.getElem?_mem h2)))
  cases hst : cache.set[s]? with
  | none => simp [isInCache, hst] at h1
  | some st =>
    rcases isInCache_cases cache s tag ctr ac st hst with
      ⟨k, _, _, _, _, h⟩ | ⟨_, ⟨k, _, _, _, _, h⟩ | ⟨_, _, k, _, _, _, _, _, h⟩ | ⟨_, _, h⟩⟩
    all_goals
      rw [h] at h1
      cases h1
    · exact hmod k _ (fun x hx => by simpa [hitWrite] using hx)
    · exact hmod k _ (fun _ _ => Or.inr rfl)
    · exact hmod k _ (fun _ _ => Or.inr rfl)
    · exact hall

theorem isInCache_hit_of_holds (cache : Cache) (s tag : Nat) (ctr : Counters) (ac : Int)
    (st : Set) (hst : cache.set[s]? = some st) (hh : ∃ l ∈ st.line, l.holds tag) :
    ∃ c2, isInCache cache s tag ctr ac = some (c2, ctr.hit) := by
  obtain ⟨l, hl, hlh⟩ := hh
  rcases isInCache_cases cache s tag ctr ac st hst with
    ⟨k, _, _, _, _, h⟩ | ⟨hmiss, _⟩
  · exact ⟨_, h⟩
  · exact absurd hlh (hmiss l hl)

/-- Calls of `isInCache` on other sets leave set `s` as it is. -/
theorem isInCache_calls_other_sets (s : Nat) :
    ∀ (calls : List Call) (cache : Cache) (ctr : Counters),
      (∀ c ∈ calls, c.set_number ≠ s ∧ c.set_number < cache.num_sets) →
      ∃ c2 ctr2, isInCache_calls cache ctr calls = some (c2, ctr2) ∧
        c2.set[s]? = cache.set[s]? := by
  intro calls
  induction calls with
  | nil => intro cache ctr _; exact ⟨cache, ctr, rfl, rfl⟩
  | cons c rest ih =>
    intro cache ctr hin
    obtain ⟨hne, hlt⟩ := hin c (by simp)
    obtain ⟨c1, ctr1, h1, hlen, hframe, _, _⟩ :=
      isInCache_frame cache c.set_number c.tag ctr c.access_counter hlt
    obtain ⟨c2, ctr2, h2, hs2⟩ := ih c1 ctr1 (by
      intro x hx
      have := hin x (by simp [hx])
      exact ⟨this.1, by simpa [Cache.num_sets, hlen] using this.2⟩)
    exact ⟨c2, ctr2, by simp [isInCache_calls, h1, h2], by rw [hs2, hframe s hne]⟩

theorem simulateCache_loop_append (set_bits block_bits : Nat) :
    ∀ (l1 l2 : List Access) (st : SimState),
      simulateCache_loop set_bits block_bits st (l1 ++ l2) =
        match simulateCache_loop set_bits block_bits st l1 with
        | none => none
        | some st1 => simulateCache_loop set_bits block_bits st1 l2 := by
  intro l1
  induction l1 with
  | nil => intro l2 st; rfl
  | cons a rest ih =>
    intro l2 st
    simp only [List.cons_append, simulateCache_loop]
    cases simulateCache_step set_bits block_bits st a with
    | none => rfl
    | some st1 => exact ih l2 st1

theorem t_bits_lt (set_bits block_bits addr : Nat) :
    t_bits set_bits block_bits addr < 2 ^ (block_bits + set_bits) := by
  rw [t_bits_eq_mod]
  exact Nat.mod_lt _ (by positivity)

theorem makeEmptyCache_shapeOK (n E : Nat) :
    ∀ st ∈ (makeEmptyCache n E).set, st.shapeOK E := by
  intro st hst
  simp only [makeEmptyCache, List.mem_map] at hst
  obtain ⟨_, _, rfl⟩ := hst
  refine ⟨by simp, ?_⟩
  intro l hl
  simp only [List.mem_map] at hl
  obtain ⟨_, _, rfl⟩ := hl
  exact Or.inl rfl

/-- One call from the replay loop on a well-shaped cache. -/
theorem simulateCache_access_shape (n E s tag : Nat) (st : SimState)
    (hn : st.cache.set.length = n) (hs : s < n) (hE : 1 ≤ E)
    (hall : ∀ x ∈ st.cache.set, x.shapeOK E) (htag : tag < 2 ^ 31) :
    ∃ st1, simulateCache_access s tag st = some st1 ∧ st1.cache.set.length = n ∧
      (∀ x ∈ st1.cache.set, x.shapeOK E) ∧
      ∃ st2 c3, simulateCache_access s tag st1 = some st2 ∧
        isInCache st1.cache s tag st1.ctr st1.access_counter = some (c3, st1.ctr.hit) ∧
        st2 = ⟨c3, st1.ctr.hit, st1.access_counter + 1⟩ ∧
        st2.cache.set.length = n ∧ (∀ x ∈ st2.cache.set, x.shapeOK E) := by
  have hst : st.cache.set[s]? = some st.cache.set[s] := List.getElem?_eq_getElem (by omega)
  have hok := hall _ (List.getElem?_mem hst)
  have hne : st.cache.set[s].line ≠ [] := by
    intro h
    have := hok.1
    simp [h] at this
    omega
  obtain ⟨c1, ctr1, st1, h1, hlen, _, hs1, hholds, _⟩ :=
    isInCache_then_holds st.cache s tag st.ctr st.access_counter _ hst hne hok.2 htag
  have hall1 := isInCache_shapeOK st.cache s tag st.ctr st.access_counter E hall c1 ctr1 h1
  obtain ⟨c3, h3⟩ := isInCache_hit_of_holds c1 s tag ctr1 (st.access_counter + 1) st1 hs1 hholds
  have hall3 := isInCache_shapeOK c1 s tag ctr1 (st.access_counter + 1) E hall1 c3 _ h3
  obtain ⟨c4, ctr4, e1, e2, _⟩ := isInCache_frame c1 s tag ctr1 (st.access_counter + 1)
    (by omega)
  rw [h3] at e1
  cases e1
  refine ⟨⟨c1, ctr1, st.access_counter + 1⟩, by simp [simulateCache_access, h1],
    by simpa [hn] using hlen, hall1, ⟨c3, ctr1.hit, st.access_counter + 1 + 1⟩, c3, ?_, h3, rfl,
    by simp [e2, hlen, hn], hall3⟩
  simp [simulateCache_access, h3]

theorem simulateCache_step_shape (set_bits block_bits E : Nat) (st : SimState) (a : Access)
    (hn : st.cache.set.length = 2 ^ set_bits) (hE : 1 ≤ E)
    (hbits : set_bits + block_bits ≤ 30) (hall : ∀ x ∈ st.cache.set, x.shapeOK E) :
    ∃ st2, simulateCache_step set_bits block_bits st a = some st2 ∧
      st2.cache.set.length = 2 ^ set_bits ∧ (∀ x ∈ st2.cache.set, x.shapeOK E) ∧
      (a.oper = Oper.M →
        ∃ st1 c3, simulateCache_access (s_bits set_bits block_bits a.addr)
            (t_bits set_bits block_bits a.addr) st = some st1 ∧
          isInCache st1.cache (s_bits set_bits block_bits a.addr)
            (t_bits set_bits block_bits a.addr) st1.ctr st1.access_counter =
              some (c3, st1.ctr.hit) ∧
          st2 = ⟨c3, st1.ctr.hit, st1.access_counter + 1⟩) := by
  have hlt := s_bits_lt set_bits block_bits a.addr
  have htag : t_bits set_bits block_bits a.addr < 2 ^ 31 := by
    have h1 := t_bits_lt set_bits block_bits a.addr
    have h2 : 2 ^ (block_bits + set_bits) ≤ 2 ^ 30 :=
      Nat.pow_le_pow_right (by decide) (by omega)
    omega
  obtain ⟨st1, h1, hn1, hall1, st2, c3, h2, h3, hst2, hn2, hall2⟩ :=
    simulateCache_access_shape (2 ^ set_bits) E (s_bits set_bits block_bits a.addr)
      (t_bits set_bits block_bits a.addr) st hn hlt hE hall htag
  cases ho : a.oper with
  | I => exact ⟨st, by simp [simulateCache_step, ho], hn, hall, by simp⟩
  | L => exact ⟨st1, by simp [simulateCache_step, ho, h1], hn1, hall1, by simp⟩
  | S => exact ⟨st1, by simp [simulateCache_step, ho, h1], hn1, hall1, by simp⟩
  | M => exact ⟨st2, by simp [simulateCache_step, ho, h1, h2], hn2, hall2,
      fun _ => ⟨st1, c3, h1, h3, hst2⟩⟩

theorem simulateCache_loop_shape (set_bits block_bits E : Nat) (hE : 1 ≤ E)
    (hbits : set_bits + block_bits ≤ 30) :
    ∀ (trace : List Access) (st : SimState), st.cache.set.length = 2 ^ set_bits →
      (∀ x ∈ st.cache.set, x.shapeOK E) →
      ∃ st2, simulateCache_loop set_bits block_bits st trace = some st2 ∧
        st2.cache.set.length = 2 ^ set_bits ∧ ∀ x ∈ st2.cache.set, x.shapeOK E := by
  intro trace
  induction trace with
  | nil => intro st hn hall; exact ⟨st, rfl, hn, hall⟩
  | cons a rest ih =>
    intro st hn hall
    obtain ⟨st1, h1, hn1, hall1, _⟩ :=
      simulateCache_step_shape set_bits block_bits E st a hn hE hbits hall
    obtain ⟨st2, h2, hn2, hall2⟩ := ih st1 hn1 hall1
    exact ⟨st2, by simp [simulateCache_loop, h1, h2], hn2, hall2⟩

theorem isInCache_calls_append :
    ∀ (l1 l2 : List Call) (cache : Cache) (ctr : Counters),
      isInCache_calls cache ctr (l1 ++ l2) =
        match isInCache_calls cache ctr l1 with
        | none => none
        | some (c1, ctr1) => isInCache_calls c1 ctr1 l2 := by
  intro l1
  induction l1 with
  | nil => intro l2 cache ctr; rfl
  | cons c rest ih =>
    intro l2 cache ctr
    simp only [List.cons_append, isInCache_calls]
    cases isInCache cache c.set_number c.tag ctr c.access_counter with
    | none => rfl
    | some r => exact ih l2 r.1 r.2

theorem accessCalls_length (set_bits block_bits : Nat) (ac : Int) (a : Access) :
    (accessCalls set_bits block_bits ac a).length = a.oper.calls := by
  unfold accessCalls
  cases a.oper <;> rfl

theorem traceCallList_length (set_bits block_bits : Nat) :
    ∀ (trace : List Access) (ac : Int),
      (traceCallList set_bits block_bits ac trace).length = traceCalls trace := by
  intro trace
  induction trace with
  | nil => intro ac; simp [traceCallList, traceCalls, countOper]
  | cons a rest ih =>
    intro ac
    simp [traceCallList, accessCalls_length, ih, traceCalls_cons]

theorem accessCalls_stamp (set_bits block_bits : Nat) (ac : Int) (a : Access) (k : Nat)
    (c : Call) (h : (accessCalls set_bits block_bits ac a)[k]? = some c) :
    c.access_counter = ac + (k : Int) := by
  unfold accessCalls at h
  cases ho : a.oper <;> simp only [ho] at h
  · simp at h
  · cases k with
    | zero => simp at h; subst h; simp
    | succ k2 => simp at h
  · cases k with
    | zero => simp at h; subst h; simp
    | succ k2 => simp at h
  · cases k with
    | zero => simp at h; subst h; simp
    | succ k2 =>
      cases k2 with
      | zero => simp at h; subst h; simp
      | succ k3 => simp at h

theorem traceCallList_stamp (set_bits block_bits : Nat) :
    ∀ (trace : List Access) (ac : Int) (k : Nat) (c : Call),
      (traceCallList set_bits block_bits ac trace)[k]? = some c →
      c.access_counter = ac + (k : Int) := by
  intro trace
  induction trace with
  | nil => intro ac k c h; simp [traceCallList] at h
  | cons a rest ih =>
    intro ac k c h
    simp only [traceCallList] at h
    by_cases hk : k < (accessCalls set_bits block_bits ac a).length
    · rw [List.getElem?_append_left hk] at h
      exact accessCalls_stamp set_bits block_bits ac a k c h
    · rw [List.getElem?_append_right (by omega)] at h
      have := ih _ _ c h
      rw [this, accessCalls_length]
      rw [accessCalls_length] at hk
      push_cast [Nat.cast_sub (Nat.le_of_not_lt hk)]
      ring

/-- A record of the replay loop is the run of its `isInCache` calls. -/
theorem simulateCache_step_eq_calls (set_bits block_bits : Nat) (st : SimState) (a : Access) :
    simulateCache_step set_bits block_bits st a =
      match isInCache_calls st.cache st.ctr
          (accessCalls set_bits block_bits st.access_counter a) with
      | none => none
      | some (c, k) => some ⟨c, k, st.access_counter + (a.oper.calls : Int)⟩ := by
  unfold simulateCache_step accessCalls
  cases ho : a.oper
  · simp [isInCache_calls, Oper.calls]
  · simp only [ne_eq, reduceCtorEq, not_false_eq_true, if_true, if_false,
      isInCache_calls, simulateCache_access, Oper.calls]
    cases isInCache st.cache (s_bits set_bits block_bits a.addr)
      (t_bits set_bits block_bits a.addr) st.ctr st.access_counter with
    | none => rfl
    | some r => simp
  · simp only [ne_eq, reduceCtorEq, not_false_eq_true, if_true, if_false,
      isInCache_calls, simulateCache_access, Oper.calls]
    cases isInCache st.cache (s_bits set_bits block_bits a.addr)
      (t_bits set_bits block_bits a.addr) st.ctr st.access_counter with
    | none => rfl
    | some r => simp
  · simp only [ne_eq, reduceCtorEq, not_false_eq_true, if_true,
      isInCache_calls, simulateCache_access, Oper.calls]
    cases isInCache st.cache (s_bits set_bits block_bits a.addr)
      (t_bits set_bits block_bits a.addr) st.ctr st.access_counter with
    | none => rfl
    | some r =>
      simp only []
      cases isInCache r.1 (s_bits set_bits block_bits a.addr)
        (t_bits set_bits block_bits a.addr) r.2 (st.access_counter + 1) with
      | none => rfl
      | some r2 => simp; ring

/-- The replay loop is the run of the `isInCache` calls of the trace. -/
theorem simulateCache_loop_eq_calls (set_bits block_bits : Nat) :
    ∀ (trace : List Access) (st : SimState),
      simulateCache_loop set_bits block_bits st trace =
        match isInCache_calls st.cache st.ctr
            (traceCallList set_bits block_bits st.access_counter trace) with
        | none => none
        | some (c, k) => some ⟨c, k, st.access_counter + (traceCalls trace : Int)⟩ := by
  intro trace
  induction trace with
  | nil => intro st; simp [simulateCache_loop, traceCallList, isInCache_calls, traceCalls, countOper]
  | cons a rest ih =>
    intro st
    simp only [simulateCache_loop, traceCallList]
    rw [simulateCache_step_eq_calls, isInCache_calls_append]
    cases isInCache_calls st.cache st.ctr
      (accessCalls set_bits block_bits st.access_counter a) with
    | none => rfl
    | some r =>
      simp only []
      rw [ih]
      simp only []
      cases isInCache_calls r.1 r.2 (traceCallList set_bits block_bits
        (st.access_counter + (a.oper.calls : Int)) rest) with
      | none => rfl
      | some r2 =>
        simp only [traceCalls_cons]
        push_cast
        rw [add_assoc]

theorem s_bits_congr (set_bits block_bits a a2 : Nat)
    (h : a >>> block_bits = a2 >>> block_bits) :
    s_bits set_bits block_bits a = s_bits set_bits block_bits a2 := by
  unfold s_bits
  rw [h]

theorem t_bits_congr (set_bits block_bits a a2 : Nat)
    (h : a >>> block_bits = a2 >>> block_bits) :
    t_bits set_bits block_bits a = t_bits set_bits block_bits a2 := by
  unfold t_bits
  rw [Nat.add_comm set_bits block_bits, Nat.shiftRight_add, Nat.shiftRight_add, h]

theorem accessCalls_congr (set_bits block_bits : Nat) (ac : Int) (o : Oper) (a a2 : Nat)
    (sz sz2 : Int) (h : a >>> block_bits = a2 >>> block_bits) :
    accessCalls set_bits block_bits ac ⟨o, a, sz⟩ =
      accessCalls set_bits block_bits ac ⟨o, a2, sz2⟩ := by
  unfold accessCalls
  simp only [s_bits_congr set_bits block_bits a a2 h, t_bits_congr set_bits block_bits a a2 h]

theorem traceCallList_congr (set_bits block_bits : Nat) (o : Oper) (a a2 : Nat)
    (sz sz2 : Int) (h : a >>> block_bits = a2 >>> block_bits) (post : List Access) :
    ∀ (before : List Access) (ac : Int),
      traceCallList set_bits block_bits ac (before ++ ⟨o, a, sz⟩ :: post) =
        traceCallList set_bits block_bits ac (before ++ ⟨o, a2, sz2⟩ :: post) := by
  intro before
  induction before with
  | nil =>
    intro ac
    simp only [List.nil_append, traceCallList]
    rw [accessCalls_congr set_bits block_bits ac o a a2 sz sz2 h]
  | cons x rest ih =>
    intro ac
    show accessCalls set_bits block_bits ac x ++ traceCallList set_bits block_bits _
        (rest ++ ⟨o, a, sz⟩ :: post) =
      accessCalls set_bits block_bits ac x ++ traceCallList set_bits block_bits _
        (rest ++ ⟨o, a2, sz2⟩ :: post)
    rw [ih]

theorem simulateCache_eq_calls (trace : List Access) (set_bits block_bits E : Nat)
    (ctr : Counters) :
    simulateCache trace set_bits block_bits E ctr =
      match isInCache_calls (makeEmptyCache (2 ^ set_bits) E) ctr
          (traceCallList set_bits block_bits ((2 ^ set_bits : Nat) : Int) trace) with
      | none => none
      | some (c, k) => some ⟨c, k, ((2 ^ set_bits : Nat) : Int) + (traceCalls trace : Int)⟩ := by
  unfold simulateCache
  exact simulateCache_loop_eq_calls set_bits block_bits trace _

theorem traceCalls_congr (o : Oper) (a a2 : Nat) (sz sz2 : Int) (post : List Access) :
    ∀ (before : List Access),
      traceCalls (before ++ ⟨o, a, sz⟩ :: post) = traceCalls (before ++ ⟨o, a2, sz2⟩ :: post) := by
  intro before
  induction before with
  | nil => simp [traceCalls_cons]
  | cons x rest ih => simp [traceCalls_cons, ih]

theorem toMemAddr_eq_iff (x : Int) (tag : Nat) (hx : -2 ^ 31 ≤ x ∧ x < 2 ^ 31)
    (htag : tag < 2 ^ 31) : toMemAddr x = tag ↔ x = (tag : Int) := by
  unfold toMemAddr
  omega

theorem toInt_of_toMemAddr (x : Int) (tag : Nat) (hx : -2 ^ 31 ≤ x ∧ x < 2 ^ 31)
    (h : toMemAddr x = tag) : x = toInt tag := by
  unfold toMemAddr at h
  unfold toInt
  omega

theorem holds_iff (l : Line) (tag : Nat) (hl : -2 ^ 31 ≤ l.tag ∧ l.tag < 2 ^ 31)
    (htag : tag < 2 ^ 31) : l.holds tag ↔ (l.valid = 1 ∧ l.tag = (tag : Int)) := by
  unfold Line.holds
  rw [toMemAddr_eq_iff l.tag tag hl htag]

theorem set_set_frame (cache : Cache) (s k : Nat) (st : Set) (lk new : Line)
    (hst : cache.set[s]? = some st) (hk : st.line[k]? = some lk) :
    (⟨cache.set.set s ⟨st.line.set k new⟩⟩ : Cache).num_sets = cache.num_sets ∧
    (∀ j, j ≠ s → (⟨cache.set.set s ⟨st.line.set k new⟩⟩ : Cache).set[j]? = cache.set[j]?) ∧
    (⟨cache.set.set s ⟨st.line.set k new⟩⟩ : Cache).set[s]? = some ⟨st.line.set k new⟩ ∧
    (⟨st.line.set k new⟩ : Set).num_lines = st.num_lines ∧
    (∀ i, i ≠ k → (st.line.set k new)[i]? = st.line[i]?) ∧
    (st.line.set k new)[k]? = some new := by
  have hs : s < cache.set.length := (List.getElem?_eq_some.mp hst).1
  have hkl : k < st.line.length := (List.getElem?_eq_some.mp hk).1
  refine ⟨by simp [Cache.num_sets], ?_, ?_, by simp [Set.num_lines], ?_, ?_⟩
  · intro j hj
    simp [List.getElem?_set, Ne.symm hj]
  · simp [List.getElem?_set, hs]
  · intro i hi
    simp [List.getElem?_set, Ne.symm hi]
  · simp [List.getElem?_set, hkl]

theorem countP_modify {α : Type} (p : α → Bool) (f : α → α) :
    ∀ (l : List α) (k : Nat) (x : α), l[k]? = some x →
      (l.modify f k).countP p + (if p x = true then 1 else 0) =
        l.countP p + (if p (f x) = true then 1 else 0) := by
  intro l
  induction l with
  | nil => intro k x h; simp at h
  | cons a rest ih =>
    intro k x h
    cases k with
    | zero =>
      simp at h
      subst h
      simp only [List.modify_zero_cons, List.countP_cons]
      omega
    | succ k2 =>
      simp at h
      simp only [List.modify_succ_cons, List.countP_cons]
      have := ih k2 x h
      omega

theorem sum_map_modify {α : Type} (g : α → α) (w : α → Nat) :
    ∀ (l : List α) (s : Nat) (x : α), l[s]? = some x →
      ((l.modify g s).map w).sum + w x = (l.map w).sum + w (g x) := by
  intro l
  induction l with
  | nil => intro s x h; simp at h
  | cons a rest ih =>
    intro s x h
    cases s with
    | zero =>
      simp at h
      subst h
      simp only [List.modify_zero_cons, List.map_cons, List.sum_cons]
      omega
    | succ s2 =>
      simp at h
      simp only [List.modify_succ_cons, List.map_cons, List.sum_cons]
      have := ih s2 x h
      omega

/-- Effect of a write to one line on the number of valid lines of the cache. -/
theorem totalValid_modifyLine (cache : Cache) (s k : Nat) (f : Line → Line) (st : Set)
    (lk : Line) (hst : cache.set[s]? = some st) (hk : st.line[k]? = some lk) :
    (cache.modifyLine s k f).totalValid + (if lk.valid = 1 then 1 else 0) =
      cache.totalValid + (if (f lk).valid = 1 then 1 else 0) := by
  have h1 := sum_map_modify (fun st => (⟨st.line.modify f k⟩ : Set)) Set.validCount
    cache.set s st hst
  have h2 := countP_modify (fun l : Line => decide (l.valid = 1)) f st.line k lk hk
  simp only [decide_eq_true_eq] at h2
  simp only [Cache.totalValid, Cache.modifyLine, Set.validCount] at h1 h2 ⊢
  omega

theorem totalValid_le (cache : Cache) (E : Nat) (hall : ∀ x ∈ cache.set, x.shapeOK E) :
    cache.totalValid ≤ E * cache.set.length := by
  unfold Cache.totalValid
  have : ∀ (l : List Set), (∀ x ∈ l, x.shapeOK E) → (l.map Set.validCount).sum ≤ E * l.length := by
    intro l
    induction l with
    | nil => intro _; simp
    | cons a rest ih =>
      intro h
      have ha : a.validCount ≤ E := by
        have := (h a (by simp)).1
        rw [← this]
        exact List.countP_le_length _
      have := ih (fun x hx => h x (by simp [hx]))
      simp only [List.map_cons, List.sum_cons, List.length_cons]
      rw [Nat.mul_succ]
      omega
  exact this cache.set hall

theorem makeEmptyCache_totalValid (n E : Nat) : (makeEmptyCache n E).totalValid = 0 := by
  unfold Cache.totalValid
  apply List.sum_eq_zero
  intro x hx
  simp only [List.mem_map] at hx
  obtain ⟨st, hst, rfl⟩ := hx
  exact (makeEmptyCache_validCount n E st hst).2

/-- A property of the replay state that every `isInCache` call of the replay keeps
holds after the replay of any trace. -/
theorem simulateCache_loop_invariant (set_bits block_bits : Nat) (P : SimState → Prop)
    (hP : ∀ (st : SimState) (s tag : Nat), s < 2 ^ set_bits → P st →
      ∃ st1, simulateCache_access s tag st = some st1 ∧ P st1) :
    ∀ (trace : List Access) (st : SimState), P st →
      ∃ st2, simulateCache_loop set_bits block_bits st trace = some st2 ∧ P st2 := by
  intro trace
  induction trace with
  | nil => intro st h; exact ⟨st, rfl, h⟩
  | cons a rest ih =>
    intro st h
    have hlt := s_bits_lt set_bits block_bits a.addr
    obtain ⟨st1, h1, p1⟩ := hP st _ (t_bits set_bits block_bits a.addr) hlt h
    obtain ⟨st2, h2, p2⟩ := hP st1 _ (t_bits set_bits block_bits a.addr) hlt p1
    have hstep : ∃ st3, simulateCache_step set_bits block_bits st a = some st3 ∧ P st3 := by
      cases ho : a.oper with
      | I => exact ⟨st, by simp [simulateCache_step, ho], h⟩
      | L => exact ⟨st1, by simp [simulateCache_step, ho, h1], p1⟩
      | S => exact ⟨st1, by simp [simulateCache_step, ho, h1], p1⟩
      | M => exact ⟨st2, by simp [simulateCache_step, ho, h1, h2], p2⟩
    obtain ⟨st3, h3, p3⟩ := hstep
    obtain ⟨st4, h4, p4⟩ := ih st3 p3
    exact ⟨st4, by simp [simulateCache_loop, h3, h4], p4⟩

/-- One call of `isInCache` on a cache with `E ≥ 1` lines per set and flags 0 or 1
adds the same amount to `misses - evictions` and to the number of valid lines. -/
theorem isInCache_totalValid (cache : Cache) (s tag : Nat) (ctr : Counters) (ac : Int)
    (E : Nat) (hE : 1 ≤ E) (hs : s < cache.set.length)
    (hall : ∀ x ∈ cache.set, x.shapeOK E) :
    ∃ c2 ctr2, isInCache cache s tag ctr ac = some (c2, ctr2) ∧
      c2.set.length = cache.set.length ∧ (∀ x ∈ c2.set, x.shapeOK E) ∧
      ctr2.miss_counter - ctr2.eviction_counter - (c2.totalValid : Int) =
        ctr.miss_counter - ctr.eviction_counter - (cache.totalValid : Int) := by
  have hst : cache.set[s]? = some cache.set[s] := List.getElem?_eq_getElem hs
  have hok := hall _ (List.getElem?_mem hst)
  have hne : cache.set[s].line ≠ [] := by
    intro h
    have := hok.1
    simp [h] at this
    omega
  obtain ⟨c2, ctr2, h, hlen, _⟩ := isInCache_frame cache s tag ctr ac hs
  have hall2 := isInCache_shapeOK cache s tag ctr ac E hall c2 ctr2 h
  refine ⟨c2, ctr2, h, hlen, hall2, ?_⟩
  rcases isInCache_cases cache s tag ctr ac _ hst with
    ⟨k, l, hl, hh, _, h2⟩ | ⟨_, ⟨k, l, hl, h0, _, h2⟩ | ⟨hnz, _, k, lk, _, hl, _, _, h2⟩ |
      ⟨hnz, hlast, _⟩⟩
  · rw [h2] at h
    cases h
    have := totalValid_modifyLine cache s k (hitWrite ac) _ l hst hl
    have hv : l.valid = 1 := hh.1
    simp only [hitWrite, hv, if_true] at this
    simp only [Counters.hit]
    omega
  · rw [h2] at h
    cases h
    have := totalValid_modifyLine cache s k (missWrite tag ac) _ l hst hl
    have hv : ¬ l.valid = 1 := by omega
    simp only [missWrite, hv, if_true, if_false] at this
    simp only [Counters.miss]
    omega
  · rw [h2] at h
    cases h
    have := totalValid_modifyLine cache s k (missWrite tag ac) _ lk hst hl
    have hv : lk.valid = 1 := by
      rcases hok.2 lk (List.getElem?_mem hl) with h0 | h1
      · exact absurd h0 (hnz lk (List.getElem?_mem hl))
      · exact h1
    simp only [missWrite, hv, if_true] at this
    simp only [Counters.missEvict]
    omega
  · exfalso
    apply hlast
    refine ⟨_, List.getLast?_eq_getLast _ hne, ?_⟩
    rcases hok.2 _ (List.getLast_mem hne) with h0 | h1
    · exact absurd h0 (hnz _ (List.getLast_mem hne))
    · exact h1

/-- The call writes the line `touchedLine` and nothing else. -/
theorem isInCache_touched (cache : Cache) (s tag : Nat) (ctr : Counters) (ac : Int)
    (st : Set) (hst : cache.set[s]? = some st) :
    (∃ k lk f ctr2, touchedLine cache s tag = some k ∧ st.line[k]? = some lk ∧
      isInCache cache s tag ctr ac = some (cache.modifyLine s k f, ctr2) ∧
      (∀ y, (f y).LRU = ac) ∧ (f lk).valid = 1 ∧ (∀ y, y.valid = 1 → (f y).valid = 1)) ∨
    (∃ ctr2, touchedLine cache s tag = none ∧
      isInCache cache s tag ctr ac = some (cache, ctr2)) := by
  cases hh : isInCache_hitLoop st.line tag 0 with
  | some k =>
    left
    obtain ⟨j, l, hk, hj, hl, _⟩ := hitLoop_some tag st.line 0 k hh
    have hkj : k = j := by omega
    subst hkj
    exact ⟨k, l, hitWrite ac, ctr.hit, by simp [touchedLine, hst, hh], hj,
      by simp [isInCache, hst, hh, Counters.hit], fun _ => rfl, hl.1, fun _ hy => hy⟩
  | none =>
    cases hm : isInCache_missLoop st.line st.num_lines 0 with
    | fill k =>
      left
      obtain ⟨j, l, hk, hj, _, _⟩ := missLoop_fill st.num_lines st.line 0 k hm
      have hkj : k = j := by omega
      subst hkj
      exact ⟨k, l, missWrite tag ac, ctr.miss, by simp [touchedLine, hst, hh, hm], hj,
        by simp [isInCache, hst, hh, hm, Counters.miss], fun _ => rfl, rfl, fun _ _ => rfl⟩
    | evict =>
      left
      have hne : st.line ≠ [] := by
        intro hnil
        simp [hnil, isInCache_missLoop] at hm
      obtain ⟨k, lk, hf, hk, _, _⟩ := findIndexLRU_spec cache s st hst hne
      exact ⟨k, lk, missWrite tag ac, ctr.missEvict, by simp [touchedLine, hst, hh, hm, hf], hk,
        by simp [isInCache, hst, hh, hm, hf, Counters.missEvict], fun _ => rfl, rfl,
        fun _ _ => rfl⟩
    | fallThrough =>
      right
      exact ⟨ctr.miss, by simp [touchedLine, hst, hh, hm],
        by simp [isInCache, hst, hh, hm, Counters.miss]⟩

/-- What one call does to the line `i` of set `s2`. -/
theorem isInCache_line (cache : Cache) (s tag : Nat) (ctr : Counters) (ac : Int)
    (c1 : Cache) (ctr1 : Counters) (h : isInCache cache s tag ctr ac = some (c1, ctr1))
    (s2 i : Nat) (st : Set) (l0 : Line) (hst : cache.set[s2]? = some st)
    (hl : st.line[i]? = some l0) :
    ∃ st1 l1, c1.set[s2]? = some st1 ∧ st1.line[i]? = some l1 ∧
      ((s = s2 ∧ touchedLine cache s tag = some i) → l1.LRU = ac ∧ l1.valid = 1) ∧
      (¬ (s = s2 ∧ touchedLine cache s tag = some i) → l1 = l0) := by
  cases hs : cache.set[s]? with
  | none => simp [isInCache, hs] at h
  | some sst =>
    rcases isInCache_touched cache s tag ctr ac sst hs with
      ⟨k, lk, f, ctr2, ht, hk, hr, hf1, hf2, _⟩ | ⟨ctr2, ht, hr⟩
    · rw [hr] at h
      cases h
      obtain ⟨st1, l1, e1, e2, e3⟩ := modifyLine_line_get cache s k f s2 i st l0 hst hl
      refine ⟨st1, l1, e1, e2, ?_, ?_⟩
      · rintro ⟨hs2, hti⟩
        rw [ht] at hti
        cases hti
        subst hs2
        rw [hs] at hst
        cases hst
        rw [hk] at hl
        cases hl
        rw [e3]
        simp [hf1, hf2]
      · intro hno
        rw [e3]
        have : ¬ (s = s2 ∧ k = i) := by
          rintro ⟨a, b⟩
          exact hno ⟨a, by rw [ht, b]⟩
        simp [this]
    · rw [hr] at h
      cases h
      refine ⟨st, l0, hst, hl, ?_, fun _ => rfl⟩
      rintro ⟨_, hti⟩
      rw [ht] at hti
      cases hti

/-- After a sequence of calls, a line that some call wrote carries the access
counter of the last such call and is valid; a line that no call wrote is as
before. -/
theorem isInCache_calls_lastAccess :
    ∀ (calls : List Call) (cache : Cache) (ctr : Counters) (c2 : Cache) (ctr2 : Counters),
      isInCache_calls cache ctr calls = some (c2, ctr2) →
      ∀ (s i : Nat) (st : Set) (l0 : Line), cache.set[s]? = some st → st.line[i]? = some l0 →
        ∃ st2 l2, c2.set[s]? = some st2 ∧ st2.line[i]? = some l2 ∧
          (∀ t, lastAccess cache ctr calls s i = some t → l2.LRU = t ∧ l2.valid = 1) ∧
          (lastAccess cache ctr calls s i = none → l2 = l0) := by
  intro calls
  induction calls with
  | nil =>
    intro cache ctr c2 ctr2 h s i st l0 hst hl
    simp only [isInCache_calls, Option.some.injEq, Prod.mk.injEq] at h
    obtain ⟨rfl, rfl⟩ := h
    exact ⟨st, l0, hst, hl, by simp [lastAccess], fun _ => rfl⟩
  | cons c rest ih =>
    intro cache ctr c2 ctr2 h s i st l0 hst hl
    cases h1 : isInCache cache c.set_number c.tag ctr c.access_counter with
    | none => simp [isInCache_calls, h1] at h
    | some r =>
      obtain ⟨c1, ctr1⟩ := r
      simp only [isInCache_calls, h1] at h
      obtain ⟨st1, l1, e1, e2, e3, e4⟩ := isInCache_line cache c.set_number c.tag ctr
        c.access_counter c1 ctr1 h1 s i st l0 hst hl
      obtain ⟨st2, l2, g1, g2, g3, g4⟩ := ih c1 ctr1 c2 ctr2 h s i st1 l1 e1 e2
      refine ⟨st2, l2, g1, g2, ?_, ?_⟩
      · intro t ht
        simp only [lastAccess, h1] at ht
        cases hr : lastAccess c1 ctr1 rest s i with
        | some t2 =>
          simp only [hr, Option.some.injEq] at ht
          subst ht
          exact g3 t2 hr
        | none =>
          simp only [hr] at ht
          by_cases hc : c.set_number = s ∧ touchedLine cache c.set_number c.tag = some i
          · rw [if_pos hc] at ht
            cases ht
            rw [g4 hr]
            exact e3 hc
          · rw [if_neg hc] at ht
            cases ht
      · intro hnone
        simp only [lastAccess, h1] at hnone
        cases hr : lastAccess c1 ctr1 rest s i with
        | some t2 => simp [hr] at hnone
        | none =>
          simp only [hr] at hnone
          by_cases hc : c.set_number = s ∧ touchedLine cache c.set_number c.tag = some i
          · rw [if_pos hc] at hnone
            cases hnone
          · rw [g4 hr]
            exact e4 hc

theorem stampsOK_mono (base ac : Int) (st : Set) (h : st.stampsOK base ac) :
    st.stampsOK base (ac + 1) := by
  refine ⟨fun l hl hv => ?_, h.2⟩
  have := h.1 l hl hv
  exact ⟨this.1, by omega⟩

theorem stampsOK_modify (base ac : Int) (st : Set) (k : Nat) (f : Line → Line)
    (hb : base ≤ ac) (hf : ∀ y, (f y).LRU = ac) (h : st.stampsOK base ac) :
    (⟨st.line.modify f k⟩ : Set).stampsOK base (ac + 1) := by
  constructor
  · intro l hl hv
    rcases mem_modify f st.line k l hl with h1 | ⟨y, _, rfl⟩
    · have := h.1 l h1 hv
      exact ⟨this.1, by omega⟩
    · rw [hf y]
      exact ⟨hb, by omega⟩
  · apply pairwise_modify _ f st.line k h.2
    · intro y _ x hx _ _ hxv
      rw [hf y]
      have := (h.1 x hx hxv).2
      omega
    · intro y _ x hx _ hxv _
      rw [hf y]
      have := (h.1 x hx hxv).2
      omega

/-- One call from the replay loop keeps the shape of the cache and the stamps. -/
theorem simulateCache_access_stamps (n E s tag : Nat) (base : Int) (st : SimState)
    (hs : s < n)
    (h : st.cache.set.length = n ∧ (∀ x ∈ st.cache.set, x.shapeOK E) ∧
      base ≤ st.access_counter ∧ ∀ x ∈ st.cache.set, x.stampsOK base st.access_counter) :
    ∃ st1, simulateCache_access s tag st = some st1 ∧
      (st1.cache.set.length = n ∧ (∀ x ∈ st1.cache.set, x.shapeOK E) ∧
        base ≤ st1.access_counter ∧ ∀ x ∈ st1.cache.set, x.stampsOK base st1.access_counter) := by
  obtain ⟨hn, hall, hb, hst⟩ := h
  have hget : st.cache.set[s]? = some st.cache.set[s] := List.getElem?_eq_getElem (by omega)
  obtain ⟨c2, ctr2, hr, hlen, _⟩ :=
    isInCache_frame st.cache s tag st.ctr st.access_counter (by omega)
  have hall2 := isInCache_shapeOK st.cache s tag st.ctr st.access_counter E hall c2 ctr2 hr
  refine ⟨⟨c2, ctr2, st.access_counter + 1⟩, by simp [simulateCache_access, hr],
    by simpa [hn] using hlen, hall2, by simp only []; omega, ?_⟩
  simp only []
  rcases isInCache_touched st.cache s tag st.ctr st.access_counter _ hget with
    ⟨k, lk, f, ctr3, _, _, hr2, hf1, _, _⟩ | ⟨ctr3, _, hr2⟩
  · rw [hr2] at hr
    cases hr
    exact modifyLine_all _ st.cache s k f
      (fun x hx => stampsOK_mono base st.access_counter x (hst x hx))
      (fun x hx => stampsOK_modify base st.access_counter x k f hb hf1
        (hst x (List.getElem?_mem hx)))
  · rw [hr2] at hr
    cases hr
    exact fun x hx => stampsOK_mono base st.access_counter x (hst x hx)

theorem makeEmptyCache_stampsOK (n E : Nat) (base ac : Int) :
    ∀ x ∈ (makeEmptyCache n E).set, x.stampsOK base ac := by
  intro st hst
  simp only [makeEmptyCache, List.mem_map] at hst
  obtain ⟨_, _, rfl⟩ := hst
  constructor
  · intro l hl hv
    simp only [List.mem_map] at hl
    obtain ⟨_, _, rfl⟩ := hl
    simp at hv
  · rw [List.pairwise_map]
    exact List.pairwise_of_forall (fun _ _ h => by simp at h)

theorem makeEmptyCache_line (n E s i : Nat) (hs : s < n) (hi : i < E) :
    ∃ st, (makeEmptyCache n E).set[s]? = some st ∧
      st.line[i]? = some ⟨0, 0, (i : Int)⟩ := by
  refine ⟨⟨(List.range E).map fun (j : Nat) => { valid := 0, tag := 0, LRU := (j : Int) }⟩,
    ?_, ?_⟩
  · simp only [makeEmptyCache, List.getElem?_map, List.getElem?_range hs, Option.map_some']
  · simp only [List.getElem?_map, List.getElem?_range hi, Option.map_some']

theorem pairwise_get_ne {α : Type} (R : α → α → Prop) (hsymm : ∀ a b, R a b → R b a) :
    ∀ (l : List α), l.Pairwise R → ∀ (i j : Nat) (a b : α), l[i]? = some a → l[j]? = some b →
      i ≠ j → R a b := by
  intro l hp i j a b hi hj hne
  have hil := (List.getElem?_eq_some.mp hi)
  have hjl := (List.getElem?_eq_some.mp hj)
  obtain ⟨hi1, hi2⟩ := hil
  obtain ⟨hj1, hj2⟩ := hjl
  rcases Nat.lt_or_gt_of_ne hne with hlt | hgt
  · have := List.pairwise_iff_getElem.mp hp i j hi1 hj1 hlt
    rw [hi2, hj2] at this
    exact this
  · have := List.pairwise_iff_getElem.mp hp j i hj1 hi1 hgt
    rw [hi2, hj2] at this
    exact hsymm _ _ this

/-- State of a replay: shape of the cache, stamps, and the link to the sequence of
`isInCache` calls. -/
theorem simulateCache_stamps (trace : List Access) (set_bits block_bits E : Nat)
    (ctr : Counters) :
    ∃ st, simulateCache trace set_bits block_bits E ctr = some st ∧
      isInCache_calls (makeEmptyCache (2 ^ set_bits) E) ctr
        (traceCallList set_bits block_bits ((2 ^ set_bits : Nat) : Int) trace) =
          some (st.cache, st.ctr) ∧
      st.cache.set.length = 2 ^ set_bits ∧ (∀ x ∈ st.cache.set, x.shapeOK E) ∧
      ∀ x ∈ st.cache.set, x.stampsOK ((2 ^ set_bits : Nat) : Int) st.access_counter := by
  obtain ⟨st, h, hn, hall, _, hstamps⟩ := simulateCache_loop_invariant set_bits block_bits
    (fun st => st.cache.set.length = 2 ^ set_bits ∧ (∀ x ∈ st.cache.set, x.shapeOK E) ∧
      ((2 ^ set_bits : Nat) : Int) ≤ st.access_counter ∧
      ∀ x ∈ st.cache.set, x.stampsOK ((2 ^ set_bits : Nat) : Int) st.access_counter)
    (fun st s tag hs hP =>
      simulateCache_access_stamps (2 ^ set_bits) E s tag _ st hs hP)
    trace ⟨makeEmptyCache (2 ^ set_bits) E, ctr, ((2 ^ set_bits : Nat) : Int)⟩
    ⟨makeEmptyCache_length _ _, makeEmptyCache_shapeOK _ _, le_refl _,
      makeEmptyCache_stampsOK _ _ _ _⟩
  have h2 : simulateCache trace set_bits block_bits E ctr = some st := h
  refine ⟨st, h2, ?_, hn, hall, hstamps⟩
  rw [simulateCache_eq_calls] at h2
  cases hc : isInCache_calls (makeEmptyCache (2 ^ set_bits) E) ctr
      (traceCallList set_bits block_bits ((2 ^ set_bits : Nat) : Int) trace) with
  | none =>
    rw [hc] at h2
    cases h2
  | some r =>
    rw [hc] at h2
    cases h2
    rfl

/-! # Claims -/

/-- Claim C1: for every configuration and every trace, the replay by `simulateCache`
from a freshly built cache ends, and the final counters satisfy
`hits + misses = (#Load + #Store) + 2 * #Modify` on top of the values the caller
passed in (`main` passes zeros); Instruction records add nothing. -/
theorem simulateCache_hits_add_misses (trace : List Access) (set_bits block_bits E : Nat)
    (ctr : Counters) :
    ∃ st, simulateCache trace set_bits block_bits E ctr = some st ∧
      st.ctr.hit_counter + st.ctr.miss_counter =
        ctr.hit_counter + ctr.miss_counter +
          (((countOper Oper.L trace + countOper Oper.S trace : Nat) : Int) +
            2 * ((countOper Oper.M trace : Nat) : Int)) := by
  obtain ⟨st, h, _, _, hsum⟩ := simulateCache_loop_ok set_bits block_bits trace
    ⟨makeEmptyCache (2 ^ set_bits) E, ctr, ((2 ^ set_bits : Nat) : Int)⟩
    (makeEmptyCache_length _ _)
  refine ⟨st, h, ?_⟩
  rw [hsum]
  simp only [traceCalls]
  push_cast
  ring

/-- Claim C2 (the code departs from it): the tag that the replay passes to
`isInCache` is `addr >> (set_bits + block_bits)` cut down to its low
`block_bits + set_bits` bits by `t_mask`, not the whole shifted address: with
`set_bits = 4`, `block_bits = 4` the address `0x10000` gets tag `0` although
`0x10000 >> 8 = 0x100`. -/
theorem t_bits_drops_high_bits :
    (∀ set_bits block_bits addr : Nat,
      t_bits set_bits block_bits addr =
        (addr >>> (set_bits + block_bits)) % 2 ^ (block_bits + set_bits)) ∧
    t_bits 4 4 0x10000 = 0 ∧ 0x10000 >>> (4 + 4) = 0x100 ∧
    t_bits 0 0 1 = 0 ∧ 1 >>> (0 + 0) = 1 :=
  ⟨t_bits_eq_mod, by decide, by decide, by decide, by decide⟩

/-- Claim C3 (the code departs from it): two addresses of different blocks can get
the same set index and the same tag.  With `set_bits = 1`, `block_bits = 0` the
addresses `0` and `4` both decode to set `0`, tag `0`, and the replay of
`L 0, L 4` with one line per set counts the second access as a hit. -/
theorem decode_merges_distinct_blocks :
    s_bits 1 0 0 = s_bits 1 0 4 ∧ t_bits 1 0 0 = t_bits 1 0 4 ∧
    0 >>> 0 ≠ 4 >>> 0 ∧
    (simulateCache [⟨Oper.L, 0, 1⟩, ⟨Oper.L, 4, 1⟩] 1 0 1 ⟨0, 0, 0⟩).map SimState.ctr =
      some ⟨1, 1, 0⟩ :=
  ⟨by decide, by decide, by decide, by decide⟩

/-- Claim C4: the set index that the replay computes is
`(addr >> block_bits) & ((1 << set_bits) - 1)`; it is below the number of sets
`2 ^ set_bits` of the cache that `simulateCache` builds, and no replay ever looks
up a set outside the cache (`simulateCache` returns a final state). -/
theorem s_bits_in_bounds (set_bits block_bits E addr : Nat) (trace : List Access)
    (ctr : Counters) :
    s_bits set_bits block_bits addr = (addr >>> block_bits) &&& ((1 <<< set_bits) - 1) ∧
    (makeEmptyCache (2 ^ set_bits) E).num_sets = 2 ^ set_bits ∧
    s_bits set_bits block_bits addr < (makeEmptyCache (2 ^ set_bits) E).num_sets ∧
    (∀ (cache : Cache) (tag : Nat) (c : Counters) (ac : Int),
      cache.num_sets = 2 ^ set_bits →
      ∃ r, isInCache cache (s_bits set_bits block_bits addr) tag c ac = some r ∧
        r.1.num_sets = 2 ^ set_bits) ∧
    ∃ st, simulateCache trace set_bits block_bits E ctr = some st ∧
      st.cache.num_sets = 2 ^ set_bits := by
  refine ⟨?_, makeEmptyCache_length _ _, ?_, ?_, ?_⟩
  · simp [s_bits, s_mask, Nat.and_comm]
  · rw [Cache.num_sets, makeEmptyCache_length]
    exact s_bits_lt _ _ _
  · intro cache tag c ac hn
    obtain ⟨c2, ctr2, h, hlen, _⟩ := isInCache_frame cache
      (s_bits set_bits block_bits addr) tag c ac
      (by rw [← Cache.num_sets, hn]; exact s_bits_lt _ _ _)
    exact ⟨(c2, ctr2), h, by simpa [Cache.num_sets, hlen] using hn⟩
  · obtain ⟨st, h, hn, _⟩ := simulateCache_loop_ok set_bits block_bits trace
      ⟨makeEmptyCache (2 ^ set_bits) E, ctr, ((2 ^ set_bits : Nat) : Int)⟩
      (makeEmptyCache_length _ _)
    exact ⟨st, h, hn⟩

/-- Claim C4, witness: address `0x1f` with `set_bits = 2`, `block_bits = 2` maps to
set `3` of a cache of `4` sets, and the call of `isInCache` on that cache returns. -/
theorem s_bits_in_bounds_witness :
    s_bits 2 2 0x1f = 3 ∧ (makeEmptyCache (2 ^ 2) 1).num_sets = 4 ∧
    ∃ r, isInCache (makeEmptyCache (2 ^ 2) 1) (s_bits 2 2 0x1f) 1 ⟨0, 0, 0⟩ 4 = some r ∧
      r.1.num_sets = 2 ^ 2 :=
  have h := s_bits_in_bounds 2 2 1 0x1f [] ⟨0, 0, 0⟩
  ⟨by decide, by decide, h.2.2.2.1 (makeEmptyCache (2 ^ 2) 1) 1 ⟨0, 0, 0⟩ 4 (by decide)⟩

/-- Claim C10: replaying a trace and replaying it with every Instruction record
removed give the same result: the same final cache, the same three counters and
the same access counter. -/
theorem simulateCache_ignores_instructions (trace : List Access)
    (set_bits block_bits E : Nat) (ctr : Counters) :
    simulateCache (trace.filter (fun a => decide (a.oper ≠ Oper.I))) set_bits block_bits E ctr =
      simulateCache trace set_bits block_bits E ctr := by
  unfold simulateCache
  exact simulateCache_loop_filter set_bits block_bits trace _

/-- Claim C5 as amended: in a set with at least one line `findIndexLRU` returns an
index `k` below the number of lines such that line `k` has the least LRU stamp of
the set and every line before `k` has a strictly larger stamp; on a miss in a set
whose lines are all valid, `isInCache` replaces exactly line `k` of that set by the
line with `valid = 1`, `LRU = access_counter` and the queried tag converted to the
`int` field (the tag itself when it is below `2^31`), and adds one to the miss and
to the eviction counter. -/
theorem findIndexLRU_least_and_eviction (cache : Cache) (s tag : Nat) (ctr : Counters)
    (ac : Int) (st : Set) (hst : cache.set[s]? = some st) (hE : 1 ≤ st.num_lines) :
    ∃ k lk, findIndexLRU cache s = some k ∧ k < st.num_lines ∧ st.line[k]? = some lk ∧
      (∀ (j : Nat) (x : Line), st.line[j]? = some x → lk.LRU ≤ x.LRU) ∧
      (∀ (j : Nat) (x : Line), j < k → st.line[j]? = some x → lk.LRU < x.LRU) ∧
      ((∀ l ∈ st.line, l.valid = 1) → (∀ l ∈ st.line, ¬ l.holds tag) →
        isInCache cache s tag ctr ac =
          some (⟨cache.set.set s ⟨st.line.set k ⟨1, toInt tag, ac⟩⟩⟩,
                ⟨ctr.hit_counter, ctr.miss_counter + 1, ctr.eviction_counter + 1⟩) ∧
        (tag < 2 ^ 31 → toInt tag = (tag : Int))) := by
  have hne : st.line ≠ [] := by
    intro h
    simp [Set.num_lines, h] at hE
  obtain ⟨k, lk, hf, hk, hmin, hstrict⟩ := findIndexLRU_spec cache s st hst hne
  refine ⟨k, lk, hf, (List.getElem?_eq_some.mp hk).1, hk, hmin, hstrict, ?_⟩
  intro hfull hmiss
  refine ⟨?_, toInt_of_lt tag⟩
  rcases isInCache_cases cache s tag ctr ac st hst with
    ⟨k2, l, hl, hh, _, _⟩ | ⟨_, ⟨k2, l, hl, h0, _, _⟩ | ⟨_, _, k2, lk2, hf2, _, _, _, h⟩ |
      ⟨_, hlast, _⟩⟩
  · exact absurd hh (hmiss l (List.getElem?_mem hl))
  · have := hfull l (List.getElem?_mem hl)
    omega
  · rw [hf] at hf2
    cases hf2
    rw [h, modifyLine_eq_set cache s k _ st lk hst hk]
    rfl
  · exact absurd (getLast?_valid_of_full st.line hne hfull) hlast

/-- Claim C5, witness: a set with stamps `7, 2, 2` and a miss with tag `4`. -/
theorem findIndexLRU_least_and_eviction_witness :
    findIndexLRU ⟨[⟨[⟨1, 3, 7⟩, ⟨1, 5, 2⟩, ⟨1, 9, 2⟩]⟩]⟩ 0 = some 1 ∧
    isInCache ⟨[⟨[⟨1, 3, 7⟩, ⟨1, 5, 2⟩, ⟨1, 9, 2⟩]⟩]⟩ 0 4 ⟨0, 0, 0⟩ 10 =
      some (⟨[⟨[⟨1, 3, 7⟩, ⟨1, 4, 10⟩, ⟨1, 9, 2⟩]⟩]⟩, ⟨0, 1, 1⟩) := by
  obtain ⟨k, lk, hf, _, _, _, _, h⟩ := findIndexLRU_least_and_eviction
    ⟨[⟨[⟨1, 3, 7⟩, ⟨1, 5, 2⟩, ⟨1, 9, 2⟩]⟩]⟩ 0 4 ⟨0, 0, 0⟩ 10
    ⟨[⟨1, 3, 7⟩, ⟨1, 5, 2⟩, ⟨1, 9, 2⟩]⟩ (by decide) (by decide)
  have hk : k = 1 := by
    have h1 : findIndexLRU ⟨[⟨[⟨1, 3, 7⟩, ⟨1, 5, 2⟩, ⟨1, 9, 2⟩]⟩]⟩ 0 = some 1 := by decide
    rw [h1] at hf
    cases hf
    rfl
  subst hk
  exact ⟨hf, (h (by decide) (by decide)).1⟩

/-- Claim C5, counterexample to the claim as stated: the set `0` of the cache has one
line, valid, with tag `0`; the query for tag `2^31` is a miss in a full set, and the
evicted line ends with tag `-2^31`, not with the queried tag: a second query for the
same tag does not find it. -/
theorem eviction_tag_counterexample :
    (∀ l ∈ [(⟨1, 0, 0⟩ : Line)], l.valid = 1) ∧
    (∀ l ∈ [(⟨1, 0, 0⟩ : Line)], ¬ l.holds (2 ^ 31)) ∧
    isInCache ⟨[⟨[⟨1, 0, 0⟩]⟩]⟩ 0 (2 ^ 31) ⟨0, 0, 0⟩ 5 =
      some (⟨[⟨[⟨1, -2147483648, 5⟩]⟩]⟩, ⟨0, 1, 1⟩) ∧
    (-2147483648 : Int) ≠ ((2 ^ 31 : Nat) : Int) ∧
    ¬ (⟨1, -2147483648, 5⟩ : Line).holds (2 ^ 31) := by
  refine ⟨by decide, by decide, by decide, by decide, by decide⟩

/-- Claim C6 as amended (the target set has at least one line): for a cache whose
valid flags are 0 or 1, a call of `isInCache` adds one to the eviction counter
exactly when the access is a miss and all lines of the target set are valid, and
leaves it unchanged otherwise; when some line of the target set is invalid the
eviction counter is unchanged and every valid line of the cache keeps its tag. -/
theorem eviction_iff_miss_in_full_set (cache : Cache) (s tag : Nat) (ctr : Counters)
    (ac : Int) (st : Set) (hst : cache.set[s]? = some st) (hE : 1 ≤ st.num_lines)
    (hflags : cache.flagsOK) :
    ∃ c2 ctr2, isInCache cache s tag ctr ac = some (c2, ctr2) ∧
      (ctr2.eviction_counter = ctr.eviction_counter + 1 ↔
        ((∀ l ∈ st.line, ¬ l.holds tag) ∧ ∀ l ∈ st.line, l.valid = 1)) ∧
      (ctr2.eviction_counter = ctr.eviction_counter ↔
        ¬ ((∀ l ∈ st.line, ¬ l.holds tag) ∧ ∀ l ∈ st.line, l.valid = 1)) ∧
      ((∃ l ∈ st.line, l.valid = 0) →
        ctr2.eviction_counter = ctr.eviction_counter ∧
        ∀ (j i : Nat) (st1 : Set) (l : Line), cache.set[j]? = some st1 →
          st1.line[i]? = some l → l.valid = 1 →
          ∃ st2 l2, c2.set[j]? = some st2 ∧ st2.line[i]? = some l2 ∧
            l2.valid = 1 ∧ l2.tag = l.tag) := by
  have hne : st.line ≠ [] := by
    intro h
    simp [Set.num_lines, h] at hE
  have hfl : ∀ l ∈ st.line, l.valid = 0 ∨ l.valid = 1 :=
    hflags st (List.getElem?_mem hst)
  rcases isInCache_cases cache s tag ctr ac st hst with
    ⟨k, l, hl, hh, _, h⟩ | ⟨hmiss, ⟨k, l, hl, h0, _, h⟩ | ⟨hnz, _, k, lk, _, _, _, _, h⟩ |
      ⟨hnz, hlast, _⟩⟩
  · -- hit
    have hnot : ¬ ((∀ l ∈ st.line, ¬ l.holds tag) ∧ ∀ l ∈ st.line, l.valid = 1) :=
      fun hc => hc.1 l (List.getElem?_mem hl) hh
    refine ⟨_, _, h, ?_, ?_, ?_⟩
    · simp [Counters.hit, hnot]
    · simp [Counters.hit, hnot]
    · intro _
      refine ⟨rfl, ?_⟩
      intro j i st1 x h1 h2 hv
      obtain ⟨st2, l2, e1, e2, e3⟩ := modifyLine_line_get cache s k (hitWrite ac) j i st1 x h1 h2
      refine ⟨st2, l2, e1, e2, ?_⟩
      rw [e3]
      split <;> simp [hitWrite, hv]
  · -- fill
    have hnot : ¬ ((∀ l ∈ st.line, ¬ l.holds tag) ∧ ∀ l ∈ st.line, l.valid = 1) := by
      intro hc
      have := hc.2 l (List.getElem?_mem hl)
      omega
    refine ⟨_, _, h, ?_, ?_, ?_⟩
    · simp [Counters.miss, hnot]
    · simp [Counters.miss, hnot]
    · intro _
      refine ⟨rfl, ?_⟩
      intro j i st1 x h1 h2 hv
      obtain ⟨st2, l2, e1, e2, e3⟩ :=
        modifyLine_line_get cache s k (missWrite tag ac) j i st1 x h1 h2
      refine ⟨st2, l2, e1, e2, ?_⟩
      rw [e3]
      by_cases hc : s = j ∧ k = i
      · exfalso
        obtain ⟨hsj, hki⟩ := hc
        subst hsj
        subst hki
        rw [hst] at h1
        cases h1
        rw [hl] at h2
        cases h2
        omega
      · simp [hc, hv]
  · -- eviction
    have hfull : ∀ l ∈ st.line, l.valid = 1 := by
      intro l hl
      rcases hfl l hl with h0 | h1
      · exact absurd h0 (hnz l hl)
      · exact h1
    refine ⟨_, _, h, ?_, ?_, ?_⟩
    · simp only [Counters.missEvict, true_iff]
      exact ⟨hmiss, hfull⟩
    · simp only [Counters.missEvict]
      constructor
      · intro hc; omega
      · intro hc; exact absurd ⟨hmiss, hfull⟩ hc
    · rintro ⟨l, hl, h0⟩
      exact absurd h0 (hnz l hl)
  · -- no write: excluded by the valid flags
    exfalso
    apply hlast
    refine ⟨st.line.getLast hne, List.getLast?_eq_getLast _ hne, ?_⟩
    rcases hfl _ (List.getLast_mem hne) with h0 | h1
    · exact absurd h0 (hnz _ (List.getLast_mem hne))
    · exact h1

/-- Claim C6, witness: a miss in a full set of two lines. -/
theorem eviction_iff_miss_in_full_set_witness :
    ∃ c2 ctr2, isInCache ⟨[⟨[⟨1, 3, 7⟩, ⟨1, 5, 2⟩]⟩]⟩ 0 4 ⟨0, 0, 0⟩ 10 = some (c2, ctr2) ∧
      ctr2.eviction_counter = 0 + 1 := by
  obtain ⟨c2, ctr2, h, hiff, _, _⟩ := eviction_iff_miss_in_full_set
    ⟨[⟨[⟨1, 3, 7⟩, ⟨1, 5, 2⟩]⟩]⟩ 0 4 ⟨0, 0, 0⟩ 10 ⟨[⟨1, 3, 7⟩, ⟨1, 5, 2⟩]⟩
    (by decide) (by decide) (by decide)
  exact ⟨c2, ctr2, h, hiff.mpr (by decide)⟩

/-- Claim C6, counterexample to the claim as stated: the target set has no line
(`E = 0`).  The access is a miss and every line of the set is valid, but
`isInCache` leaves the eviction counter at `0`. -/
theorem eviction_empty_set_counterexample :
    (⟨[⟨[]⟩]⟩ : Cache).flagsOK ∧
    (∀ l ∈ ([] : List Line), ¬ l.holds 7) ∧ (∀ l ∈ ([] : List Line), l.valid = 1) ∧
    isInCache ⟨[⟨[]⟩]⟩ 0 7 ⟨0, 0, 0⟩ 1 = some (⟨[⟨[]⟩]⟩, ⟨0, 1, 0⟩) ∧
    (0 : Int) ≠ 0 + 1 := by
  refine ⟨by decide, by decide, by decide, by decide, by decide⟩

/-- Claim C7: no set of the cache built by `makeEmptyCache` has two distinct valid
lines with the same tag, and `isInCache` keeps this true: for a tag below `2^31`
and a set index of the cache, if no set has two distinct valid lines with the same
tag before the call, none has after it. -/
theorem isInCache_noDupTags (cache : Cache) (s tag : Nat) (ctr : Counters) (ac : Int)
    (n E : Nat) (htag : tag < 2 ^ 31) (hs : s < cache.num_sets) (hnd : cache.noDupTags) :
    (makeEmptyCache n E).noDupTags ∧
    ∃ c2 ctr2, isInCache cache s tag ctr ac = some (c2, ctr2) ∧ c2.noDupTags := by
  refine ⟨makeEmptyCache_noDupTags n E, ?_⟩
  have hst : cache.set[s]? = some cache.set[s] := List.getElem?_eq_getElem hs
  have hnds : cache.set[s].noDupTags := hnd _ (List.getElem?_mem hst)
  have hmissW : (∀ l ∈ cache.set[s].line, ¬ l.holds tag) → ∀ k,
      (cache.modifyLine s k (missWrite tag ac)).noDupTags := by
    intro hmiss k
    apply noDupTags_modifyLine cache s k _ hnd
    intro st hst2
    rw [hst] at hst2
    cases hst2
    have key : ∀ y ∈ cache.set[s].line, ∀ x ∈ cache.set[s].line,
        ¬ (x.valid = 1 ∧ x.tag = (missWrite tag ac y).tag) := by
      intro y _ x hx hc
      apply hmiss x hx
      refine ⟨hc.1, ?_⟩
      rw [hc.2]
      simp only [missWrite]
      rw [toInt_of_lt tag htag]
      exact toMemAddr_of_lt tag (by omega)
    apply pairwise_modify _ _ _ _ hnds
    · intro y hy x hx _ hc
      exact key y hy x hx ⟨hc.2.1, hc.2.2.symm⟩
    · intro y hy x hx _ hc
      exact key y hy x hx ⟨hc.1, hc.2.2⟩
  rcases isInCache_cases cache s tag ctr ac _ hst with
    ⟨k, l, _, _, _, h⟩ | ⟨hmiss, ⟨k, l, _, _, _, h⟩ | ⟨_, _, k, lk, _, _, _, _, h⟩ |
      ⟨_, _, h⟩⟩
  · refine ⟨_, _, h, ?_⟩
    apply noDupTags_modifyLine cache s k _ hnd
    intro st hst2
    rw [hst] at hst2
    cases hst2
    apply pairwise_modify _ _ _ _ hnds
    · intro y _ x _ hr
      simpa [hitWrite] using hr
    · intro y _ x _ hr
      simpa [hitWrite] using hr
  · exact ⟨_, _, h, hmissW hmiss k⟩
  · exact ⟨_, _, h, hmissW hmiss k⟩
  · exact ⟨_, _, h, hnd⟩

/-- Claim C7, witness: a miss with tag `5` in a full set that holds the tags `3`, `9`. -/
theorem isInCache_noDupTags_witness :
    (makeEmptyCache 2 2).noDupTags ∧
    ∃ c2 ctr2, isInCache ⟨[⟨[⟨1, 3, 7⟩, ⟨1, 9, 2⟩]⟩]⟩ 0 5 ⟨0, 0, 0⟩ 10 = some (c2, ctr2) ∧
      c2.noDupTags :=
  isInCache_noDupTags ⟨[⟨[⟨1, 3, 7⟩, ⟨1, 9, 2⟩]⟩]⟩ 0 5 ⟨0, 0, 0⟩ 10 2 2
    (by decide) (by decide) (by decide)

/-- Claim C8: every set of the cache built by `makeEmptyCache` has `E` lines, none of
them valid; a call of `isInCache` (on a set of the cache) leaves in every set a
number of valid lines that is at least the number before and at most the number
`E` of lines of the set; and a set whose `E` lines are all valid still has `E`
valid lines after any sequence of later calls. -/
theorem validCount_monotone_bounded (cache : Cache) (s tag : Nat) (ctr : Counters) (ac : Int)
    (n E : Nat) (calls : List Call) (hs : s < cache.num_sets)
    (hcalls : ∀ c ∈ calls, c.set_number < cache.num_sets) :
    (∀ st ∈ (makeEmptyCache n E).set, st.num_lines = E ∧ st.validCount = 0) ∧
    (∃ c2 ctr2, isInCache cache s tag ctr ac = some (c2, ctr2) ∧
      ∀ (j : Nat) (st : Set), cache.set[j]? = some st →
        ∃ st2, c2.set[j]? = some st2 ∧ st2.num_lines = st.num_lines ∧
          st.validCount ≤ st2.validCount ∧ st2.validCount ≤ st2.num_lines) ∧
    (∃ c3 ctr3, isInCache_calls cache ctr calls = some (c3, ctr3) ∧
      ∀ (j : Nat) (st : Set), cache.set[j]? = some st → st.validCount = st.num_lines →
        ∃ st3, c3.set[j]? = some st3 ∧ st3.num_lines = st.num_lines ∧
          st3.validCount = st3.num_lines) := by
  refine ⟨makeEmptyCache_validCount n E, ?_, ?_⟩
  · obtain ⟨c2, ctr2, h, _, hv⟩ := isInCache_validCount cache s tag ctr ac hs
    exact ⟨c2, ctr2, h, hv⟩
  · obtain ⟨c3, ctr3, h, _, hv⟩ := isInCache_calls_validCount calls cache ctr hcalls
    refine ⟨c3, ctr3, h, ?_⟩
    intro j st hj hfull
    obtain ⟨st3, e, l, a, b⟩ := hv j st hj
    exact ⟨st3, e, l, by omega⟩

/-- Claim C8, witness: a fill in a set with one valid line out of two, and two later
calls on a full set. -/
theorem validCount_monotone_bounded_witness :
    (∀ st ∈ (makeEmptyCache 2 2).set, st.num_lines = 2 ∧ st.validCount = 0) ∧
    (∃ c2 ctr2, isInCache ⟨[⟨[⟨1, 3, 7⟩, ⟨0, 0, 1⟩]⟩, ⟨[⟨1, 4, 8⟩]⟩]⟩ 0 5 ⟨0, 0, 0⟩ 10 =
        some (c2, ctr2) ∧
      ∀ (j : Nat) (st : Set),
        (⟨[⟨[⟨1, 3, 7⟩, ⟨0, 0, 1⟩]⟩, ⟨[⟨1, 4, 8⟩]⟩]⟩ : Cache).set[j]? = some st →
        ∃ st2, c2.set[j]? = some st2 ∧ st2.num_lines = st.num_lines ∧
          st.validCount ≤ st2.validCount ∧ st2.validCount ≤ st2.num_lines) ∧
    (∃ c3 ctr3, isInCache_calls ⟨[⟨[⟨1, 3, 7⟩, ⟨0, 0, 1⟩]⟩, ⟨[⟨1, 4, 8⟩]⟩]⟩ ⟨0, 0, 0⟩
        [⟨1, 6, 11⟩, ⟨1, 4, 12⟩] = some (c3, ctr3) ∧
      ∀ (j : Nat) (st : Set),
        (⟨[⟨[⟨1, 3, 7⟩, ⟨0, 0, 1⟩]⟩, ⟨[⟨1, 4, 8⟩]⟩]⟩ : Cache).set[j]? = some st →
        st.validCount = st.num_lines →
        ∃ st3, c3.set[j]? = some st3 ∧ st3.num_lines = st.num_lines ∧
          st3.validCount = st3.num_lines) :=
  validCount_monotone_bounded ⟨[⟨[⟨1, 3, 7⟩, ⟨0, 0, 1⟩]⟩, ⟨[⟨1, 4, 8⟩]⟩]⟩ 0 5 ⟨0, 0, 0⟩ 10 2 2
    [⟨1, 6, 11⟩, ⟨1, 4, 12⟩] (by decide) (by decide)

/-- Claim C9 as amended (the valid flags of the cache are 0 or 1): for a cache whose
set `s` has at least one line and a tag below `2^31`, after `isInCache (s, tag)` and
any number of `isInCache` calls on other sets of the cache, a further
`isInCache (s, tag)` is a hit: the hit counter grows by one, the miss and eviction
counters stay.  When the first access is a miss it is counted as a miss with or
without eviction.  In a replay with at least one line per set and
`set_bits + block_bits ≤ 30`, the second `isInCache` call of every Modify record
is a hit. -/
theorem second_access_hits (cache : Cache) (s tag : Nat) (ctr : Counters) (ac ac2 : Int)
    (st : Set) (calls : List Call) (hst : cache.set[s]? = some st)
    (hE : 1 ≤ st.num_lines) (hflags : cache.flagsOK) (htag : tag < 2 ^ 31)
    (hcalls : ∀ c ∈ calls, c.set_number ≠ s ∧ c.set_number < cache.num_sets) :
    (∃ c1 ctr1 c2 ctr2 c3, isInCache cache s tag ctr ac = some (c1, ctr1) ∧
      isInCache_calls c1 ctr1 calls = some (c2, ctr2) ∧
      isInCache c2 s tag ctr2 ac2 =
        some (c3, ⟨ctr2.hit_counter + 1, ctr2.miss_counter, ctr2.eviction_counter⟩) ∧
      ((∀ l ∈ st.line, ¬ l.holds tag) →
        ctr1 = ⟨ctr.hit_counter, ctr.miss_counter + 1, ctr.eviction_counter⟩ ∨
        ctr1 = ⟨ctr.hit_counter, ctr.miss_counter + 1, ctr.eviction_counter + 1⟩)) ∧
    (∀ (before : List Access) (a : Access) (set_bits block_bits E : Nat) (ctr0 : Counters),
      a.oper = Oper.M → 1 ≤ E → set_bits + block_bits ≤ 30 →
      ∃ st0 st1 st2, simulateCache before set_bits block_bits E ctr0 = some st0 ∧
        simulateCache_access (s_bits set_bits block_bits a.addr)
          (t_bits set_bits block_bits a.addr) st0 = some st1 ∧
        simulateCache_access (s_bits set_bits block_bits a.addr)
          (t_bits set_bits block_bits a.addr) st1 = some st2 ∧
        st2.ctr = ⟨st1.ctr.hit_counter + 1, st1.ctr.miss_counter, st1.ctr.eviction_counter⟩ ∧
        simulateCache (before ++ [a]) set_bits block_bits E ctr0 = some st2) := by
  constructor
  · have hne : st.line ≠ [] := by
      intro h
      simp [Set.num_lines, h] at hE
    obtain ⟨c1, ctr1, st1, h1, hlen, _, hs1, hholds, hmiss⟩ := isInCache_then_holds cache s tag
      ctr ac st hst hne (hflags st (List.getElem?_mem hst)) htag
    obtain ⟨c2, ctr2, h2, hs2⟩ := isInCache_calls_other_sets s calls c1 ctr1 (by
      intro c hc
      have := hcalls c hc
      exact ⟨this.1, by simpa [Cache.num_sets, hlen] using this.2⟩)
    obtain ⟨c3, h3⟩ := isInCache_hit_of_holds c2 s tag ctr2 ac2 st1 (by rw [hs2, hs1]) hholds
    exact ⟨c1, ctr1, c2, ctr2, c3, h1, h2, h3, hmiss⟩
  · intro before a set_bits block_bits E ctr0 hM hE2 hbits
    obtain ⟨st0, h0, hn0, hall0⟩ := simulateCache_loop_shape set_bits block_bits E hE2 hbits
      before ⟨makeEmptyCache (2 ^ set_bits) E, ctr0, ((2 ^ set_bits : Nat) : Int)⟩
      (makeEmptyCache_length _ _) (makeEmptyCache_shapeOK _ _)
    obtain ⟨st2, hstep, _, _, hmod⟩ :=
      simulateCache_step_shape set_bits block_bits E st0 a hn0 hE2 hbits hall0
    obtain ⟨st1, c3, e1, e2, e3⟩ := hmod hM
    refine ⟨st0, st1, st2, h0, e1, ?_, ?_, ?_⟩
    · simp [simulateCache_access, e2, e3]
    · rw [e3]
      rfl
    · unfold simulateCache
      rw [simulateCache_loop_append, h0]
      simp [simulateCache_loop, hstep]

/-- Claim C9, witness: a fill in set `0`, an access to set `1`, then the hit. -/
theorem second_access_hits_witness :
    ∃ c1 ctr1 c2 ctr2 c3,
      isInCache ⟨[⟨[⟨0, 0, 0⟩]⟩, ⟨[⟨0, 0, 0⟩]⟩]⟩ 0 5 ⟨0, 0, 0⟩ 2 = some (c1, ctr1) ∧
      isInCache_calls c1 ctr1 [⟨1, 5, 3⟩] = some (c2, ctr2) ∧
      isInCache c2 0 5 ctr2 4 =
        some (c3, ⟨ctr2.hit_counter + 1, ctr2.miss_counter, ctr2.eviction_counter⟩) :=
  have h := (second_access_hits ⟨[⟨[⟨0, 0, 0⟩]⟩, ⟨[⟨0, 0, 0⟩]⟩]⟩ 0 5 ⟨0, 0, 0⟩ 2 4 ⟨[⟨0, 0, 0⟩]⟩
    [⟨1, 5, 3⟩] (by decide) (by decide) (by decide) (by decide) (by decide)).1
  match h with
  | ⟨c1, ctr1, c2, ctr2, c3, h1, h2, h3, _⟩ => ⟨c1, ctr1, c2, ctr2, c3, h1, h2, h3⟩

/-- Claim C9, counterexample to the claim as stated: the one line of set `0` has
`valid = 2`.  The first `isInCache (0, 7)` is a miss that writes no line, and the
`isInCache (0, 7)` that follows at once is a miss again, not a hit. -/
theorem second_access_misses_counterexample :
    isInCache ⟨[⟨[⟨2, 0, 0⟩]⟩]⟩ 0 7 ⟨0, 0, 0⟩ 1 = some (⟨[⟨[⟨2, 0, 0⟩]⟩]⟩, ⟨0, 1, 0⟩) ∧
    isInCache_calls ⟨[⟨[⟨2, 0, 0⟩]⟩]⟩ ⟨0, 1, 0⟩ [] = some (⟨[⟨[⟨2, 0, 0⟩]⟩]⟩, ⟨0, 1, 0⟩) ∧
    isInCache ⟨[⟨[⟨2, 0, 0⟩]⟩]⟩ 0 7 ⟨0, 1, 0⟩ 2 = some (⟨[⟨[⟨2, 0, 0⟩]⟩]⟩, ⟨0, 2, 0⟩) := by
  refine ⟨by decide, by decide, by decide⟩

/-- Claim C11: the access counter of the replay starts at `2 ^ set_bits > 0`; the
replay is the run of the `isInCache` calls of its records, one for a Load or a
Store, two on the same set and tag with consecutive counters for a Modify, none for
an Instruction; the call at position `k` (counted from 0) gets the counter
`2 ^ set_bits + k`; and after the trace the counter is
`2 ^ set_bits + #Load + #Store + 2 * #Modify`. -/
theorem access_counter_stamps (trace : List Access) (set_bits block_bits E : Nat)
    (ctr : Counters) :
    (0 : Int) < ((2 ^ set_bits : Nat) : Int) ∧
    (∃ st, simulateCache trace set_bits block_bits E ctr = some st ∧
      isInCache_calls (makeEmptyCache (2 ^ set_bits) E) ctr
        (traceCallList set_bits block_bits ((2 ^ set_bits : Nat) : Int) trace) =
          some (st.cache, st.ctr) ∧
      st.access_counter = ((2 ^ set_bits : Nat) : Int) +
        ((countOper Oper.L trace + countOper Oper.S trace + 2 * countOper Oper.M trace : Nat)
          : Int)) ∧
    (traceCallList set_bits block_bits ((2 ^ set_bits : Nat) : Int) trace).length =
      countOper Oper.L trace + countOper Oper.S trace + 2 * countOper Oper.M trace ∧
    (∀ (k : Nat) (c : Call),
      (traceCallList set_bits block_bits ((2 ^ set_bits : Nat) : Int) trace)[k]? = some c →
      c.access_counter = ((2 ^ set_bits : Nat) : Int) + (k : Int)) ∧
    (∀ (st : SimState) (a : Access),
      simulateCache_step set_bits block_bits st a =
        (match isInCache_calls st.cache st.ctr
            (accessCalls set_bits block_bits st.access_counter a) with
        | none => none
        | some (c, k) => some ⟨c, k, st.access_counter + (a.oper.calls : Int)⟩) ∧
      accessCalls set_bits block_bits st.access_counter a =
        (match a.oper with
        | Oper.I => []
        | Oper.L => [⟨s_bits set_bits block_bits a.addr, t_bits set_bits block_bits a.addr,
                      st.access_counter⟩]
        | Oper.S => [⟨s_bits set_bits block_bits a.addr, t_bits set_bits block_bits a.addr,
                      st.access_counter⟩]
        | Oper.M => [⟨s_bits set_bits block_bits a.addr, t_bits set_bits block_bits a.addr,
                      st.access_counter⟩,
                     ⟨s_bits set_bits block_bits a.addr, t_bits set_bits block_bits a.addr,
                      st.access_counter + 1⟩])) := by
  refine ⟨by positivity, ?_, ?_, ?_, ?_⟩
  · obtain ⟨st, h, _, hac, _⟩ := simulateCache_loop_ok set_bits block_bits trace
      ⟨makeEmptyCache (2 ^ set_bits) E, ctr, ((2 ^ set_bits : Nat) : Int)⟩
      (makeEmptyCache_length _ _)
    have h2 : simulateCache trace set_bits block_bits E ctr = some st := h
    refine ⟨st, h2, ?_, ?_⟩
    · rw [simulateCache_eq_calls] at h2
      cases hc : isInCache_calls (makeEmptyCache (2 ^ set_bits) E) ctr
          (traceCallList set_bits block_bits ((2 ^ set_bits : Nat) : Int) trace) with
      | none =>
        rw [hc] at h2
        cases h2
      | some r =>
        rw [hc] at h2
        cases h2
        rfl
    · rw [hac]
      rfl
  · rw [traceCallList_length]
    rfl
  · exact traceCallList_stamp set_bits block_bits trace _
  · intro st a
    exact ⟨simulateCache_step_eq_calls set_bits block_bits st a, rfl⟩

/-- Claim C11, witness: in the replay of `L 0, M 0x10` with `set_bits = 2` the third
call, the second one of the Modify record, gets the access counter `4 + 2`. -/
theorem access_counter_stamps_witness :
    (⟨1, 0, 6⟩ : Call).access_counter = ((2 ^ 2 : Nat) : Int) + ((2 : Nat) : Int) ∧
    (traceCallList 2 4 ((2 ^ 2 : Nat) : Int) [⟨Oper.L, 0, 1⟩, ⟨Oper.M, 0x10, 1⟩]).length =
      countOper Oper.L [⟨Oper.L, 0, 1⟩, ⟨Oper.M, 0x10, 1⟩] +
        countOper Oper.S [⟨Oper.L, 0, 1⟩, ⟨Oper.M, 0x10, 1⟩] +
        2 * countOper Oper.M [⟨Oper.L, 0, 1⟩, ⟨Oper.M, 0x10, 1⟩] :=
  have h := access_counter_stamps [⟨Oper.L, 0, 1⟩, ⟨Oper.M, 0x10, 1⟩] 2 4 1 ⟨0, 0, 0⟩
  ⟨h.2.2.2.1 2 ⟨1, 0, 6⟩ (by decide), h.2.2.1⟩

/-- Claim C12 (the code departs from it): with `set_bits = 0`, `block_bits = 0`,
`E = 2` the mask `t_mask` is `0`, so the addresses `0` and `1` both get tag `0`; the
replay of `L 0, L 1, L 0, L 1` is a fill followed by three hits and ends with
`hits = 3`, `misses = 1`, `evictions = 0`. -/
theorem replay_two_way_one_set :
    t_mask 0 0 = 0 ∧ t_bits 0 0 0 = 0 ∧ t_bits 0 0 1 = 0 ∧
    (simulateCache [⟨Oper.L, 0, 1⟩] 0 0 2 ⟨0, 0, 0⟩).map SimState.ctr = some ⟨0, 1, 0⟩ ∧
    (simulateCache [⟨Oper.L, 0, 1⟩, ⟨Oper.L, 1, 1⟩] 0 0 2 ⟨0, 0, 0⟩).map SimState.ctr =
      some ⟨1, 1, 0⟩ ∧
    (simulateCache [⟨Oper.L, 0, 1⟩, ⟨Oper.L, 1, 1⟩, ⟨Oper.L, 0, 1⟩] 0 0 2 ⟨0, 0, 0⟩).map
      SimState.ctr = some ⟨2, 1, 0⟩ ∧
    (simulateCache [⟨Oper.L, 0, 1⟩, ⟨Oper.L, 1, 1⟩, ⟨Oper.L, 0, 1⟩, ⟨Oper.L, 1, 1⟩] 0 0 2
      ⟨0, 0, 0⟩).map SimState.ctr = some ⟨3, 1, 0⟩ :=
  ⟨by decide, by decide, by decide, by decide, by decide, by decide, by decide⟩

/-- Claim C13 as amended: with `set_bits = 1`, `block_bits = 0`, `E = 1` the replay of
`L 0, L 1, L 0` is a fill in set `0`, a fill in set `1` (address `1` has set index `1`
and tag `0`), then a hit in set `0`; it ends with `hits = 1`, `misses = 2`,
`evictions = 0`. -/
theorem replay_direct_mapped_two_sets :
    s_bits 1 0 0 = 0 ∧ t_bits 1 0 0 = 0 ∧ s_bits 1 0 1 = 1 ∧ t_bits 1 0 1 = 0 ∧
    simulateCache [⟨Oper.L, 0, 1⟩] 1 0 1 ⟨0, 0, 0⟩ =
      some ⟨⟨[⟨[⟨1, 0, 2⟩]⟩, ⟨[⟨0, 0, 0⟩]⟩]⟩, ⟨0, 1, 0⟩, 3⟩ ∧
    simulateCache [⟨Oper.L, 0, 1⟩, ⟨Oper.L, 1, 1⟩] 1 0 1 ⟨0, 0, 0⟩ =
      some ⟨⟨[⟨[⟨1, 0, 2⟩]⟩, ⟨[⟨1, 0, 3⟩]⟩]⟩, ⟨0, 2, 0⟩, 4⟩ ∧
    simulateCache [⟨Oper.L, 0, 1⟩, ⟨Oper.L, 1, 1⟩, ⟨Oper.L, 0, 1⟩] 1 0 1 ⟨0, 0, 0⟩ =
      some ⟨⟨[⟨[⟨1, 0, 4⟩]⟩, ⟨[⟨1, 0, 3⟩]⟩]⟩, ⟨1, 2, 0⟩, 5⟩ :=
  ⟨by decide, by decide, by decide, by decide, by decide, by decide, by decide⟩

/-- Claim C13, counterexample to the claim as stated: the addresses `0` and `1` have
different set indices and the same tag, and the final counters of the replay are not
`hits = 0`, `misses = 3`, `evictions = 2`. -/
theorem replay_direct_mapped_counterexample :
    s_bits 1 0 1 ≠ s_bits 1 0 0 ∧ t_bits 1 0 1 = t_bits 1 0 0 ∧
    (simulateCache [⟨Oper.L, 0, 1⟩, ⟨Oper.L, 1, 1⟩, ⟨Oper.L, 0, 1⟩] 1 0 1 ⟨0, 0, 0⟩).map
      SimState.ctr ≠ some ⟨0, 3, 2⟩ :=
  ⟨by decide, by decide, by decide⟩

/-- Claim C14: with `set_bits = 2`, `block_bits = 4`, `E = 1` the record `M 0x10,1`
on the fresh cache makes two calls of `isInCache` on set `1`, tag `0`: the first is a
miss that fills the line, the second a hit; the replay ends with `hits = 1`,
`misses = 1`, `evictions = 0`. -/
theorem replay_modify_fill_then_hit :
    s_bits 2 4 0x10 = 1 ∧ t_bits 2 4 0x10 = 0 ∧
    isInCache (makeEmptyCache (2 ^ 2) 1) 1 0 ⟨0, 0, 0⟩ 4 =
      some (⟨[⟨[⟨0, 0, 0⟩]⟩, ⟨[⟨1, 0, 4⟩]⟩, ⟨[⟨0, 0, 0⟩]⟩, ⟨[⟨0, 0, 0⟩]⟩]⟩, ⟨0, 1, 0⟩) ∧
    isInCache ⟨[⟨[⟨0, 0, 0⟩]⟩, ⟨[⟨1, 0, 4⟩]⟩, ⟨[⟨0, 0, 0⟩]⟩, ⟨[⟨0, 0, 0⟩]⟩]⟩ 1 0 ⟨0, 1, 0⟩ 5 =
      some (⟨[⟨[⟨0, 0, 0⟩]⟩, ⟨[⟨1, 0, 5⟩]⟩, ⟨[⟨0, 0, 0⟩]⟩, ⟨[⟨0, 0, 0⟩]⟩]⟩, ⟨1, 1, 0⟩) ∧
    simulateCache [⟨Oper.M, 0x10, 1⟩] 2 4 1 ⟨0, 0, 0⟩ =
      some ⟨⟨[⟨[⟨0, 0, 0⟩]⟩, ⟨[⟨1, 0, 5⟩]⟩, ⟨[⟨0, 0, 0⟩]⟩, ⟨[⟨0, 0, 0⟩]⟩]⟩, ⟨1, 1, 0⟩, 6⟩ :=
  ⟨by decide, by decide, by decide, by decide, by decide⟩

/-- Claim C15: two addresses with the same `addr >> block_bits` decode to the same
set index and the same tag; replacing one by the other in a record of a trace
leaves the sequence of `isInCache` calls (set, tag and access counter of every
call) and the result of the replay (cache, counters, access counter) unchanged. -/
theorem offset_bits_irrelevant (set_bits block_bits E : Nat) (a a2 : Nat)
    (h : a >>> block_bits = a2 >>> block_bits) (before post : List Access) (o : Oper)
    (size : Int) (ctr : Counters) :
    s_bits set_bits block_bits a = s_bits set_bits block_bits a2 ∧
    t_bits set_bits block_bits a = t_bits set_bits block_bits a2 ∧
    traceCallList set_bits block_bits ((2 ^ set_bits : Nat) : Int)
        (before ++ ⟨o, a, size⟩ :: post) =
      traceCallList set_bits block_bits ((2 ^ set_bits : Nat) : Int)
        (before ++ ⟨o, a2, size⟩ :: post) ∧
    simulateCache (before ++ ⟨o, a, size⟩ :: post) set_bits block_bits E ctr =
      simulateCache (before ++ ⟨o, a2, size⟩ :: post) set_bits block_bits E ctr := by
  refine ⟨s_bits_congr _ _ _ _ h, t_bits_congr _ _ _ _ h,
    traceCallList_congr set_bits block_bits o a a2 size size h post before _, ?_⟩
  rw [simulateCache_eq_calls, simulateCache_eq_calls,
    traceCallList_congr set_bits block_bits o a a2 size size h post before,
    traceCalls_congr o a a2 size size post before]

/-- Claim C15, witness: the addresses `0x13` and `0x1c` lie in the block `1` of 16
bytes. -/
theorem offset_bits_irrelevant_witness :
    s_bits 2 4 0x13 = s_bits 2 4 0x1c ∧ t_bits 2 4 0x13 = t_bits 2 4 0x1c ∧
    simulateCache ([⟨Oper.L, 0, 1⟩] ++ ⟨Oper.S, 0x13, 1⟩ :: [⟨Oper.M, 0x50, 1⟩]) 2 4 1
        ⟨0, 0, 0⟩ =
      simulateCache ([⟨Oper.L, 0, 1⟩] ++ ⟨Oper.S, 0x1c, 1⟩ :: [⟨Oper.M, 0x50, 1⟩]) 2 4 1
        ⟨0, 0, 0⟩ :=
  have h := offset_bits_irrelevant 2 4 1 0x13 0x1c (by decide) [⟨Oper.L, 0, 1⟩]
    [⟨Oper.M, 0x50, 1⟩] Oper.S 1 ⟨0, 0, 0⟩
  ⟨h.1, h.2.1, h.2.2.2⟩

/-- Claim C16: for a tag below `2^31` (the tag fields being C `int`s), a call of
`isInCache` takes the hit branch, counted by the hit counter, exactly when some
line of set `s` has `valid = 1` and the queried tag.  Then the hit counter grows by
one, the miss and eviction counters stay, and the cache after the call is the
cache before it with `LRU = access_counter` in the first such line of set `s`:
no valid flag and no tag changes.  Otherwise the hit counter stays and the miss
counter grows by one. -/
theorem hit_branch_iff (cache : Cache) (s tag : Nat) (ctr : Counters) (ac : Int) (st : Set)
    (hst : cache.set[s]? = some st) (htag : tag < 2 ^ 31) (hint : cache.tagsInRange) :
    ∃ c2 ctr2, isInCache cache s tag ctr ac = some (c2, ctr2) ∧
      (ctr2.hit_counter = ctr.hit_counter + 1 ↔
        ∃ l ∈ st.line, l.valid = 1 ∧ l.tag = (tag : Int)) ∧
      ((∃ l ∈ st.line, l.valid = 1 ∧ l.tag = (tag : Int)) →
        ctr2 = ⟨ctr.hit_counter + 1, ctr.miss_counter, ctr.eviction_counter⟩ ∧
        ∃ k lk, st.line[k]? = some lk ∧ lk.valid = 1 ∧ lk.tag = (tag : Int) ∧
          (∀ (j : Nat) (x : Line), j < k → st.line[j]? = some x →
            ¬ (x.valid = 1 ∧ x.tag = (tag : Int))) ∧
          c2 = ⟨cache.set.set s ⟨st.line.set k ⟨lk.valid, lk.tag, ac⟩⟩⟩) ∧
      ((¬ ∃ l ∈ st.line, l.valid = 1 ∧ l.tag = (tag : Int)) →
        ctr2.hit_counter = ctr.hit_counter ∧ ctr2.miss_counter = ctr.miss_counter + 1) := by
  have hr : ∀ l ∈ st.line, -2 ^ 31 ≤ l.tag ∧ l.tag < 2 ^ 31 :=
    hint st (List.getElem?_mem hst)
  have hmissE : (∀ l ∈ st.line, ¬ l.holds tag) →
      ¬ ∃ l ∈ st.line, l.valid = 1 ∧ l.tag = (tag : Int) := by
    rintro hmiss ⟨l, hl, hv⟩
    exact hmiss l hl ((holds_iff l tag (hr l hl) htag).mpr hv)
  rcases isInCache_cases cache s tag ctr ac st hst with
    ⟨k, l, hl, hh, hmin, h⟩ | ⟨hmiss, ⟨k, l, _, _, _, h⟩ | ⟨_, _, k, lk, _, _, _, _, h⟩ |
      ⟨_, _, h⟩⟩
  · have hlm := List.getElem?_mem hl
    have hv := (holds_iff l tag (hr l hlm) htag).mp hh
    have hex : ∃ l ∈ st.line, l.valid = 1 ∧ l.tag = (tag : Int) := ⟨l, hlm, hv⟩
    refine ⟨_, _, h, ?_, ?_, ?_⟩
    · simp [Counters.hit, hex]
    · intro _
      refine ⟨rfl, k, l, hl, hv.1, hv.2, ?_, ?_⟩
      · intro j x hj hx hc
        exact hmin j x hj hx ((holds_iff x tag (hr x (List.getElem?_mem hx)) htag).mpr hc)
      · rw [modifyLine_eq_set cache s k _ st l hst hl]
        rfl
    · intro hno
      exact absurd hex hno
  · have hno := hmissE hmiss
    refine ⟨_, _, h, ?_, fun hex => absurd hex hno, fun _ => ⟨rfl, rfl⟩⟩
    simp [Counters.miss, hno]
  · have hno := hmissE hmiss
    refine ⟨_, _, h, ?_, fun hex => absurd hex hno, fun _ => ⟨rfl, rfl⟩⟩
    simp [Counters.missEvict, hno]
  · have hno := hmissE hmiss
    refine ⟨_, _, h, ?_, fun hex => absurd hex hno, fun _ => ⟨rfl, rfl⟩⟩
    simp [Counters.miss, hno]

/-- Claim C16, witness: tag `9` is in the second and the third line of the set; the
hit is counted and the second line is the one whose stamp is renewed. -/
theorem hit_branch_iff_witness :
    ∃ c2 ctr2, isInCache ⟨[⟨[⟨1, 3, 7⟩, ⟨1, 9, 2⟩, ⟨1, 9, 5⟩]⟩]⟩ 0 9 ⟨0, 0, 0⟩ 10 =
        some (c2, ctr2) ∧
      ctr2 = ⟨0 + 1, 0, 0⟩ ∧
      ∃ k lk, [(⟨1, 3, 7⟩ : Line), ⟨1, 9, 2⟩, ⟨1, 9, 5⟩][k]? = some lk ∧ lk.valid = 1 ∧
        lk.tag = ((9 : Nat) : Int) ∧
        (∀ (j : Nat) (x : Line), j < k →
          [(⟨1, 3, 7⟩ : Line), ⟨1, 9, 2⟩, ⟨1, 9, 5⟩][j]? = some x →
          ¬ (x.valid = 1 ∧ x.tag = ((9 : Nat) : Int))) ∧
        c2 = ⟨[(⟨[⟨1, 3, 7⟩, ⟨1, 9, 2⟩, ⟨1, 9, 5⟩]⟩ : Set)].set 0
          ⟨[(⟨1, 3, 7⟩ : Line), ⟨1, 9, 2⟩, ⟨1, 9, 5⟩].set k ⟨lk.valid, lk.tag, 10⟩⟩⟩ :=
  match hit_branch_iff ⟨[⟨[⟨1, 3, 7⟩, ⟨1, 9, 2⟩, ⟨1, 9, 5⟩]⟩]⟩ 0 9 ⟨0, 0, 0⟩ 10
    ⟨[⟨1, 3, 7⟩, ⟨1, 9, 2⟩, ⟨1, 9, 5⟩]⟩ (by decide) (by decide) (by decide) with
  | ⟨c2, ctr2, h, _, himp, _⟩ => ⟨c2, ctr2, h, himp (by decide)⟩

/-- Claim C17 as amended: for a cache whose valid flags are 0 or 1, on a miss in a
set with an invalid line, `isInCache` replaces the first invalid line of the set
(all lines before it are valid), whatever the LRU stamps are, by the line with
`valid = 1`, `LRU = access_counter` and the queried tag converted to the `int`
field (the tag itself when it is below `2^31`); the miss counter grows by one, the
hit and eviction counters stay. -/
theorem miss_fills_first_invalid (cache : Cache) (s tag : Nat) (ctr : Counters) (ac : Int)
    (st : Set) (hst : cache.set[s]? = some st) (hflags : cache.flagsOK)
    (hmiss : ∀ l ∈ st.line, ¬ l.holds tag) (hinv : ∃ l ∈ st.line, l.valid = 0) :
    ∃ k lk, st.line[k]? = some lk ∧ lk.valid = 0 ∧
      (∀ (j : Nat) (x : Line), j < k → st.line[j]? = some x → x.valid = 1) ∧
      isInCache cache s tag ctr ac =
        some (⟨cache.set.set s ⟨st.line.set k ⟨1, toInt tag, ac⟩⟩⟩,
              ⟨ctr.hit_counter, ctr.miss_counter + 1, ctr.eviction_counter⟩) ∧
      (tag < 2 ^ 31 → toInt tag = (tag : Int)) := by
  have hfl : ∀ l ∈ st.line, l.valid = 0 ∨ l.valid = 1 := hflags st (List.getElem?_mem hst)
  rcases isInCache_cases cache s tag ctr ac st hst with
    ⟨k, l, hl, hh, _, _⟩ | ⟨_, ⟨k, l, hl, h0, hmin, h⟩ | ⟨hnz, _⟩ | ⟨hnz, _⟩⟩
  · exact absurd hh (hmiss l (List.getElem?_mem hl))
  · refine ⟨k, l, hl, h0, ?_, ?_, toInt_of_lt tag⟩
    · intro j x hj hx
      rcases hfl x (List.getElem?_mem hx) with hx0 | hx1
      · exact absurd hx0 (hmin j x hj hx)
      · exact hx1
    · rw [h, modifyLine_eq_set cache s k _ st l hst hl]
      rfl
  · obtain ⟨l, hl, h0⟩ := hinv
    exact absurd h0 (hnz l hl)
  · obtain ⟨l, hl, h0⟩ := hinv
    exact absurd h0 (hnz l hl)

/-- Claim C17, witness: the first invalid line is the second one, although the third
has the smaller stamp. -/
theorem miss_fills_first_invalid_witness :
    ∃ k lk, [(⟨1, 3, 7⟩ : Line), ⟨0, 0, 9⟩, ⟨0, 0, 2⟩][k]? = some lk ∧ lk.valid = 0 ∧
      (∀ (j : Nat) (x : Line), j < k →
        [(⟨1, 3, 7⟩ : Line), ⟨0, 0, 9⟩, ⟨0, 0, 2⟩][j]? = some x → x.valid = 1) ∧
      isInCache ⟨[⟨[⟨1, 3, 7⟩, ⟨0, 0, 9⟩, ⟨0, 0, 2⟩]⟩]⟩ 0 5 ⟨0, 0, 0⟩ 10 =
        some (⟨[(⟨[⟨1, 3, 7⟩, ⟨0, 0, 9⟩, ⟨0, 0, 2⟩]⟩ : Set)].set 0
                ⟨[(⟨1, 3, 7⟩ : Line), ⟨0, 0, 9⟩, ⟨0, 0, 2⟩].set k ⟨1, toInt 5, 10⟩⟩⟩,
              ⟨0, 0 + 1, 0⟩) ∧
      toInt 5 = ((5 : Nat) : Int) :=
  match miss_fills_first_invalid ⟨[⟨[⟨1, 3, 7⟩, ⟨0, 0, 9⟩, ⟨0, 0, 2⟩]⟩]⟩ 0 5 ⟨0, 0, 0⟩ 10
    ⟨[⟨1, 3, 7⟩, ⟨0, 0, 9⟩, ⟨0, 0, 2⟩]⟩ (by decide) (by decide) (by decide) (by decide) with
  | ⟨k, lk, hk, h0, hmin, h, ht⟩ => ⟨k, lk, hk, h0, hmin, h, ht (by decide)⟩

/-- Claim C17, counterexample to the claim as stated: the query for tag `2^31` misses
in a set whose only line is invalid; the line is filled with tag `-2^31`, which is
not the queried tag, and does not answer a second query for it. -/
theorem fill_tag_counterexample :
    (⟨[⟨[⟨0, 0, 0⟩]⟩]⟩ : Cache).flagsOK ∧
    (∀ l ∈ [(⟨0, 0, 0⟩ : Line)], ¬ l.holds (2 ^ 31)) ∧
    isInCache ⟨[⟨[⟨0, 0, 0⟩]⟩]⟩ 0 (2 ^ 31) ⟨0, 0, 0⟩ 3 =
      some (⟨[⟨[⟨1, -2147483648, 3⟩]⟩]⟩, ⟨0, 1, 0⟩) ∧
    (-2147483648 : Int) ≠ ((2 ^ 31 : Nat) : Int) ∧
    ¬ (⟨1, -2147483648, 3⟩ : Line).holds (2 ^ 31) := by
  refine ⟨by decide, by decide, by decide, by decide, by decide⟩

/-- Claim C18 as amended: for a cache whose valid flags are 0 or 1 (the tag fields
being C `int`s) and a set `s` with at least one line, a call of `isInCache` writes
exactly one line, a line `k` of set `s`: the cache after the call is the cache before
it with that line replaced.  Every other set and every other line of set `s` is
unchanged, and the written line ends with `valid = 1`, `LRU = access_counter` and
the queried tag converted to the `int` field (the tag itself when it is below
`2^31`). -/
theorem isInCache_writes_one_line (cache : Cache) (s tag : Nat) (ctr : Counters) (ac : Int)
    (st : Set) (hst : cache.set[s]? = some st) (hE : 1 ≤ st.num_lines)
    (hflags : cache.flagsOK) (hint : cache.tagsInRange) :
    ∃ k lk c2 ctr2 st2, st.line[k]? = some lk ∧
      isInCache cache s tag ctr ac = some (c2, ctr2) ∧
      c2 = ⟨cache.set.set s ⟨st.line.set k ⟨1, toInt tag, ac⟩⟩⟩ ∧
      c2.num_sets = cache.num_sets ∧
      (∀ j, j ≠ s → c2.set[j]? = cache.set[j]?) ∧
      c2.set[s]? = some st2 ∧ st2.num_lines = st.num_lines ∧
      (∀ i, i ≠ k → st2.line[i]? = st.line[i]?) ∧
      st2.line[k]? = some ⟨1, toInt tag, ac⟩ ∧
      (tag < 2 ^ 31 → toInt tag = (tag : Int)) := by
  have hne : st.line ≠ [] := by
    intro h
    simp [Set.num_lines, h] at hE
  have hfl : ∀ l ∈ st.line, l.valid = 0 ∨ l.valid = 1 := hflags st (List.getElem?_mem hst)
  have hr : ∀ l ∈ st.line, -2 ^ 31 ≤ l.tag ∧ l.tag < 2 ^ 31 :=
    hint st (List.getElem?_mem hst)
  have build : ∀ (k : Nat) (lk : Line) (ctr2 : Counters), st.line[k]? = some lk →
      isInCache cache s tag ctr ac =
        some (⟨cache.set.set s ⟨st.line.set k ⟨1, toInt tag, ac⟩⟩⟩, ctr2) →
      ∃ k lk c2 ctr2 st2, st.line[k]? = some lk ∧
        isInCache cache s tag ctr ac = some (c2, ctr2) ∧
        c2 = ⟨cache.set.set s ⟨st.line.set k ⟨1, toInt tag, ac⟩⟩⟩ ∧
        c2.num_sets = cache.num_sets ∧
        (∀ j, j ≠ s → c2.set[j]? = cache.set[j]?) ∧
        c2.set[s]? = some st2 ∧ st2.num_lines = st.num_lines ∧
        (∀ i, i ≠ k → st2.line[i]? = st.line[i]?) ∧
        st2.line[k]? = some ⟨1, toInt tag, ac⟩ ∧
        (tag < 2 ^ 31 → toInt tag = (tag : Int)) := by
    intro k lk ctr2 hk h
    obtain ⟨f1, f2, f3, f4, f5, f6⟩ := set_set_frame cache s k st lk ⟨1, toInt tag, ac⟩ hst hk
    exact ⟨k, lk, _, ctr2, _, hk, h, rfl, f1, f2, f3, f4, f5, f6, toInt_of_lt tag⟩
  rcases isInCache_cases cache s tag ctr ac st hst with
    ⟨k, l, hl, hh, _, h⟩ | ⟨_, ⟨k, l, hl, _, _, h⟩ | ⟨_, _, k, lk, _, hl, _, _, h⟩ |
      ⟨hnz, hlast, _⟩⟩
  · apply build k l ctr.hit hl
    rw [h, modifyLine_eq_set cache s k _ st l hst hl]
    have e1 : l.valid = 1 := hh.1
    have e2 : l.tag = toInt tag := toInt_of_toMemAddr l.tag tag (hr l (List.getElem?_mem hl)) hh.2
    simp only [hitWrite, e1, e2]
  · apply build k l ctr.miss hl
    rw [h, modifyLine_eq_set cache s k _ st l hst hl]
    rfl
  · apply build k lk ctr.missEvict hl
    rw [h, modifyLine_eq_set cache s k _ st lk hst hl]
    rfl
  · exfalso
    apply hlast
    refine ⟨st.line.getLast hne, List.getLast?_eq_getLast _ hne, ?_⟩
    rcases hfl _ (List.getLast_mem hne) with h0 | h1
    · exact absurd h0 (hnz _ (List.getLast_mem hne))
    · exact h1

/-- Claim C18, witness: a hit on the second line of set `1` of a cache of two sets. -/
theorem isInCache_writes_one_line_witness :
    ∃ k lk c2 ctr2, [(⟨1, 3, 7⟩ : Line), ⟨1, 9, 2⟩][k]? = some lk ∧
      isInCache ⟨[⟨[⟨0, 0, 0⟩]⟩, ⟨[⟨1, 3, 7⟩, ⟨1, 9, 2⟩]⟩]⟩ 1 9 ⟨0, 0, 0⟩ 10 = some (c2, ctr2) ∧
      c2 = ⟨[(⟨[⟨0, 0, 0⟩]⟩ : Set), ⟨[⟨1, 3, 7⟩, ⟨1, 9, 2⟩]⟩].set 1
        ⟨[(⟨1, 3, 7⟩ : Line), ⟨1, 9, 2⟩].set k ⟨1, toInt 9, 10⟩⟩⟩ :=
  match isInCache_writes_one_line ⟨[⟨[⟨0, 0, 0⟩]⟩, ⟨[⟨1, 3, 7⟩, ⟨1, 9, 2⟩]⟩]⟩ 1 9 ⟨0, 0, 0⟩ 10
    ⟨[⟨1, 3, 7⟩, ⟨1, 9, 2⟩]⟩ (by decide) (by decide) (by decide) (by decide) with
  | ⟨k, lk, c2, ctr2, _, hk, h, hc, _⟩ => ⟨k, lk, c2, ctr2, hk, h, hc⟩

/-- Claim C18, counterexample to the claim as stated: the query for tag `2^32 + 5`
misses and fills the second line of the set, which ends with tag `5`, not with the
queried tag, and does not answer a second query for it. -/
theorem written_tag_counterexample :
    (⟨[⟨[⟨1, 3, 0⟩, ⟨0, 0, 1⟩]⟩]⟩ : Cache).flagsOK ∧
    isInCache ⟨[⟨[⟨1, 3, 0⟩, ⟨0, 0, 1⟩]⟩]⟩ 0 (2 ^ 32 + 5) ⟨0, 0, 0⟩ 8 =
      some (⟨[⟨[⟨1, 3, 0⟩, ⟨1, 5, 8⟩]⟩]⟩, ⟨0, 1, 0⟩) ∧
    (5 : Int) ≠ ((2 ^ 32 + 5 : Nat) : Int) ∧
    ¬ (⟨1, 5, 8⟩ : Line).holds (2 ^ 32 + 5) := by
  refine ⟨by decide, by decide, by decide, by decide⟩

/-- Claim C19 as amended (at least one line per set): after the replay of any trace
from the freshly built cache, the misses minus the evictions counted by the replay
equal the number of valid lines of the whole cache; hence the evictions are at most
the misses and misses minus evictions is at most `E * 2 ^ set_bits`.  The counters
are taken relative to the values at the call (`main` passes zeros). -/
theorem misses_minus_evictions (trace : List Access) (set_bits block_bits E : Nat)
    (ctr : Counters) (hE : 1 ≤ E) :
    ∃ st, simulateCache trace set_bits block_bits E ctr = some st ∧
      (st.ctr.miss_counter - ctr.miss_counter) -
          (st.ctr.eviction_counter - ctr.eviction_counter) = (st.cache.totalValid : Int) ∧
      st.ctr.eviction_counter - ctr.eviction_counter ≤
        st.ctr.miss_counter - ctr.miss_counter ∧
      (st.ctr.miss_counter - ctr.miss_counter) -
          (st.ctr.eviction_counter - ctr.eviction_counter) ≤ ((E * 2 ^ set_bits : Nat) : Int) := by
  obtain ⟨st, h, hn, hall, hinv⟩ := simulateCache_loop_invariant set_bits block_bits
    (fun st => st.cache.set.length = 2 ^ set_bits ∧ (∀ x ∈ st.cache.set, x.shapeOK E) ∧
      st.ctr.miss_counter - st.ctr.eviction_counter - (st.cache.totalValid : Int) =
        ctr.miss_counter - ctr.eviction_counter)
    (by
      intro st s tag hs ⟨hn, hall, hinv⟩
      obtain ⟨c2, ctr2, h, hlen, hall2, heq⟩ := isInCache_totalValid st.cache s tag st.ctr
        st.access_counter E hE (by omega) hall
      exact ⟨⟨c2, ctr2, st.access_counter + 1⟩, by simp [simulateCache_access, h],
        by simpa [hn] using hlen, hall2, by simpa [heq] using hinv⟩)
    trace ⟨makeEmptyCache (2 ^ set_bits) E, ctr, ((2 ^ set_bits : Nat) : Int)⟩
    ⟨makeEmptyCache_length _ _, makeEmptyCache_shapeOK _ _,
      by simp [makeEmptyCache_totalValid]⟩
  have hle := totalValid_le st.cache E hall
  rw [hn] at hle
  have hle2 : (st.cache.totalValid : Int) ≤ ((E * 2 ^ set_bits : Nat) : Int) := by
    exact_mod_cast hle
  refine ⟨st, h, by omega, by omega, by omega⟩

/-- Claim C19, witness: two evictions in a cache of one line. -/
theorem misses_minus_evictions_witness :
    ∃ st, simulateCache [⟨Oper.L, 0, 1⟩, ⟨Oper.L, 1, 1⟩, ⟨Oper.M, 2, 1⟩] 0 0 1 ⟨0, 0, 0⟩ =
        some st ∧
      (st.ctr.miss_counter - 0) - (st.ctr.eviction_counter - 0) =
        (st.cache.totalValid : Int) ∧
      st.ctr.eviction_counter - 0 ≤ st.ctr.miss_counter - 0 ∧
      (st.ctr.miss_counter - 0) - (st.ctr.eviction_counter - 0) ≤ ((1 * 2 ^ 0 : Nat) : Int) :=
  misses_minus_evictions [⟨Oper.L, 0, 1⟩, ⟨Oper.L, 1, 1⟩, ⟨Oper.M, 2, 1⟩] 0 0 1 ⟨0, 0, 0⟩
    (by decide)

/-- Claim C19, counterexample to the claim as stated: with `E = 0` the replay of
`L 0` counts one miss and no eviction, while the cache has no valid line and
`E * 2 ^ set_bits = 0`. -/
theorem misses_without_lines_counterexample :
    simulateCache [⟨Oper.L, 0, 1⟩] 0 0 0 ⟨0, 0, 0⟩ = some ⟨⟨[⟨[]⟩]⟩, ⟨0, 1, 0⟩, 2⟩ ∧
    (⟨[⟨[]⟩]⟩ : Cache).totalValid = 0 ∧
    (1 : Int) - 0 ≠ (((⟨[⟨[]⟩]⟩ : Cache).totalValid : Nat) : Int) ∧
    ¬ ((1 : Int) - 0 ≤ ((0 * 2 ^ 0 : Nat) : Int)) := by
  refine ⟨by decide, by decide, by decide, by decide⟩

/-- Claim C20: after the replay of any trace from the freshly built cache with at
least one line per set, every valid line has a stamp that is at least
`2 ^ set_bits`, below the current access counter and equal to the access counter of
the most recent `isInCache` call that hit, filled or evicted that line; two
distinct valid lines of a set have different stamps; and in a set whose lines are
all valid (where the next miss evicts) `findIndexLRU` returns the one line whose
stamp, the access counter of its last access, is strictly below that of every
other line of the set, so no stamp written by `makeEmptyCache` takes part. -/
theorem stamps_and_lru_victim (trace : List Access) (set_bits block_bits E : Nat)
    (ctr : Counters) (hE : 1 ≤ E) :
    ∃ st, simulateCache trace set_bits block_bits E ctr = some st ∧
      st.cache.num_sets = 2 ^ set_bits ∧ (∀ x ∈ st.cache.set, x.num_lines = E) ∧
      (∀ (s i : Nat), s < 2 ^ set_bits → i < E →
        ∃ x l, st.cache.set[s]? = some x ∧ x.line[i]? = some l ∧
          (l.valid = 1 →
            ((2 ^ set_bits : Nat) : Int) ≤ l.LRU ∧ l.LRU < st.access_counter ∧
            lastAccess (makeEmptyCache (2 ^ set_bits) E) ctr
              (traceCallList set_bits block_bits ((2 ^ set_bits : Nat) : Int) trace) s i =
                some l.LRU)) ∧
      (∀ (s i j : Nat) (x : Set) (a b : Line), st.cache.set[s]? = some x →
        x.line[i]? = some a → x.line[j]? = some b → i ≠ j → a.valid = 1 → b.valid = 1 →
        a.LRU ≠ b.LRU) ∧
      (∀ (s : Nat) (x : Set), st.cache.set[s]? = some x → (∀ l ∈ x.line, l.valid = 1) →
        ∃ k lk, findIndexLRU st.cache s = some k ∧ x.line[k]? = some lk ∧
          ((2 ^ set_bits : Nat) : Int) ≤ lk.LRU ∧
          lastAccess (makeEmptyCache (2 ^ set_bits) E) ctr
            (traceCallList set_bits block_bits ((2 ^ set_bits : Nat) : Int) trace) s k =
              some lk.LRU ∧
          ∀ (i : Nat) (l : Line), x.line[i]? = some l → i ≠ k →
            lk.LRU < l.LRU ∧
            lastAccess (makeEmptyCache (2 ^ set_bits) E) ctr
              (traceCallList set_bits block_bits ((2 ^ set_bits : Nat) : Int) trace) s i =
                some l.LRU) := by
  obtain ⟨st, h, hcalls, hn, hall, hstamps⟩ :=
    simulateCache_stamps trace set_bits block_bits E ctr
  have hlast : ∀ (s i : Nat), s < 2 ^ set_bits → i < E →
      ∃ x l, st.cache.set[s]? = some x ∧ x.line[i]? = some l ∧
        (l.valid = 1 →
          ((2 ^ set_bits : Nat) : Int) ≤ l.LRU ∧ l.LRU < st.access_counter ∧
          lastAccess (makeEmptyCache (2 ^ set_bits) E) ctr
            (traceCallList set_bits block_bits ((2 ^ set_bits : Nat) : Int) trace) s i =
              some l.LRU) := by
    intro s i hs hi
    obtain ⟨x0, hx0, hl0⟩ := makeEmptyCache_line (2 ^ set_bits) E s i hs hi
    obtain ⟨x, l, hx, hl, g3, g4⟩ := isInCache_calls_lastAccess _ _ _ _ _ hcalls s i x0 _ hx0 hl0
    refine ⟨x, l, hx, hl, ?_⟩
    intro hv
    have hb := (hstamps x (List.getElem?_mem hx)).1 l (List.getElem?_mem hl) hv
    refine ⟨hb.1, hb.2, ?_⟩
    cases hla : lastAccess (makeEmptyCache (2 ^ set_bits) E) ctr
        (traceCallList set_bits block_bits ((2 ^ set_bits : Nat) : Int) trace) s i with
    | none =>
      have := g4 hla
      rw [this] at hv
      simp at hv
    | some t =>
      rw [(g3 t hla).1]
  have hdist : ∀ (s i j : Nat) (x : Set) (a b : Line), st.cache.set[s]? = some x →
      x.line[i]? = some a → x.line[j]? = some b → i ≠ j → a.valid = 1 → b.valid = 1 →
      a.LRU ≠ b.LRU := by
    intro s i j x a b hx ha hb hne hav hbv
    exact pairwise_get_ne _ (fun a b hab hb ha => (hab ha hb).symm) x.line
      (hstamps x (List.getElem?_mem hx)).2 i j a b ha hb hne hav hbv
  refine ⟨st, h, hn, fun x hx => (hall x hx).1, hlast, hdist, ?_⟩
  intro s x hx hfull
  have hs : s < 2 ^ set_bits := by
    rw [← hn]
    exact (List.getElem?_eq_some.mp hx).1
  have hlen : x.line.length = E := (hall x (List.getElem?_mem hx)).1
  have hne : x.line ≠ [] := by
    intro hnil
    simp [hnil] at hlen
    omega
  obtain ⟨k, lk, hf, hk, hmin, _⟩ := findIndexLRU_spec st.cache s x hx hne
  have same : ∀ (i : Nat) (l : Line), x.line[i]? = some l →
      ((2 ^ set_bits : Nat) : Int) ≤ l.LRU ∧
      lastAccess (makeEmptyCache (2 ^ set_bits) E) ctr
        (traceCallList set_bits block_bits ((2 ^ set_bits : Nat) : Int) trace) s i =
          some l.LRU := by
    intro i l hl
    have hi : i < E := by
      rw [← hlen]
      exact (List.getElem?_eq_some.mp hl).1
    obtain ⟨x2, l2, hx2, hl2, himp⟩ := hlast s i hs hi
    rw [hx] at hx2
    cases hx2
    rw [hl] at hl2
    cases hl2
    have := himp (hfull l (List.getElem?_mem hl))
    exact ⟨this.1, this.2.2⟩
  refine ⟨k, lk, hf, hk, (same k lk hk).1, (same k lk hk).2, ?_⟩
  intro i l hl hik
  refine ⟨?_, (same i l hl).2⟩
  have h1 := hmin i l hl
  have h2 := hdist s k i x lk l hx hk hl (Ne.symm hik) (hfull lk (List.getElem?_mem hk))
    (hfull l (List.getElem?_mem hl))
  omega

/-- Claim C20, witness: a cache of one set with two lines, filled by `L 0`, `L 1`
and then hit on the first line. -/
theorem stamps_and_lru_victim_witness :
    ∃ st, simulateCache [⟨Oper.L, 0, 1⟩, ⟨Oper.L, 2, 1⟩, ⟨Oper.L, 0, 1⟩] 0 1 2 ⟨0, 0, 0⟩ =
        some st ∧
      ∀ (s : Nat) (x : Set), st.cache.set[s]? = some x → (∀ l ∈ x.line, l.valid = 1) →
        ∃ k lk, findIndexLRU st.cache s = some k ∧ x.line[k]? = some lk ∧
          ∀ (i : Nat) (l : Line), x.line[i]? = some l → i ≠ k → lk.LRU < l.LRU :=
  match stamps_and_lru_victim [⟨Oper.L, 0, 1⟩, ⟨Oper.L, 2, 1⟩, ⟨Oper.L, 0, 1⟩] 0 1 2 ⟨0, 0, 0⟩
    (by decide) with
  | ⟨st, h, _, _, _, _, hv⟩ =>
    ⟨st, h, fun s x hx hfull =>
      match hv s x hx hfull with
      | ⟨k, lk, hf, hk, _, _, hmin⟩ => ⟨k, lk, hf, hk, fun i l hl hik => (hmin i l hl hik).1⟩⟩

end CacheSim
